import Mathlib

/-!
# Top-average-difference ranking metric (`src/metric/topavgdiff_metric.hpp`)

A shallow embedding of `LightGBM::TopavgdiffMetric` and proofs about it.

Modelling conventions:

* `label_t` / `double` values are taken over exact arithmetic.  A finite value is a rational
  number; the single extra value `Dbl.nan` stands for every non-finite outcome of a division
  by zero (IEEE NaN or an infinity).  It is absorbing for the operations the metric uses.
* `data_size_t` and `int` are modelled as `Int` (no wrap-around: group sizes are assumed to
  stay below `2^30`, so `cur_k * 2` does not overflow).
* A raw pointer (`const label_t*`, `const double*`) is a total function from the index to the
  value stored there; pointer arithmetic `p + b` is the function `fun t => p (b + t)`.
* A `std::vector` is a `List`; every `operator[]` on a vector is bounds checked and an access
  outside the vector makes the whole computation return `none`.
-/

namespace LightGBM

/-! ## Values -/

/-- Double precision value over exact arithmetic: a finite rational, or the non-finite
outcome of an invalid division. -/
inductive Dbl where
  | fin (q : ℚ)
  | nan
  deriving DecidableEq

namespace Dbl

/-- Addition of doubles: `a + b`, non-finite as soon as one operand is. -/
def add : Dbl → Dbl → Dbl
  | fin a, fin b => fin (a + b)
  | _, _ => nan

/-- Product `x * w` of a double with a finite factor `w`. -/
def scale : Dbl → ℚ → Dbl
  | fin a, w => fin (a * w)
  | nan, _ => nan

/-- Quotient `x / d` of a double by a finite divisor; dividing by zero is not a finite value. -/
def div : Dbl → ℚ → Dbl
  | fin a, d => if d = 0 then nan else fin (a / d)
  | nan, _ => nan

instance : Zero Dbl := ⟨fin 0⟩

instance : Add Dbl := ⟨add⟩

instance : AddCommMonoid Dbl where
  add_assoc := by
    intro a b c
    show add (add a b) c = add a (add b c)
    cases a <;> cases b <;> cases c <;> simp [add, add_assoc]
  zero_add := by
    intro a
    show add (fin 0) a = a
    cases a <;> simp [add]
  add_zero := by
    intro a
    show add a (fin 0) = a
    cases a <;> simp [add]
  add_comm := by
    intro a b
    show add a b = add b a
    cases a <;> cases b <;> simp [add, add_comm]
  nsmul := nsmulRec

end Dbl

/-! ## Vectors -/

/-- Checked read `v[i]` of a vector at a signed index. -/
def vget {α : Type} (v : List α) (i : Int) : Option α :=
  if 0 ≤ i then v[i.toNat]? else none

/-- Checked write `v[i] = x` of a vector. -/
def vset {α : Type} (v : List α) (i : Nat) (x : α) : Option (List α) :=
  if i < v.length then some (v.set i x) else none

/-! ## `std::stable_sort` -/

/-- Insertion of `x`, which stood before every element of the sorted list in the input
order, behind the elements that the comparator puts strictly before it. -/
def stableInsert {α : Type} (comp : α → α → Bool) (x : α) : List α → List α
  | [] => [x]
  | y :: ys => if comp y x then y :: stableInsert comp x ys else x :: y :: ys

/-- Model of `std::stable_sort(first, last, comp)`: sorts by the strict weak order `comp`
and keeps the input order of equivalent elements (stable insertion sort). -/
def stable_sort {α : Type} (comp : α → α → Bool) : List α → List α
  | [] => []
  | x :: xs => stableInsert comp x (stable_sort comp xs)

/-! ## `TopavgdiffMetric::CalAvgdiffAtK` -/

/-- Lines 68-73: the indices `0 .. num_data - 1`, stably sorted by descending score. -/
def sortedIdx (score : Int → ℚ) (num_data : Int) : List Int :=
  stable_sort (fun a b => decide (score a > score b))
    ((List.range num_data.toNat).map Int.ofNat)

/-- Lines 80-84: the inner loop `for (j = cur_left; j < cur_k; ++j)`, unrolled for its
`n` remaining iterations starting at `j`; returns the updated `sum_label`. -/
def pairLoop (label : Int → ℚ) (sorted_idx : List Int) (num_data : Int) :
    Nat → Int → ℚ → Option ℚ
  | 0, _, sum_label => some sum_label
  | n + 1, j, sum_label =>
    match vget sorted_idx j, vget sorted_idx (num_data - j - 1) with
    | some idx1, some idx2 =>
      pairLoop label sorted_idx num_data n (j + 1) (sum_label + (label idx1 - label idx2))
    | _, _ => none

/-- Lines 77-87: the loop over the cutoffs, from position `i` on, with the loop-carried
`sum_label` and `cur_left`; returns the updated output vector. -/
def cutoffLoop (label : Int → ℚ) (sorted_idx : List Int) (num_data : Int) :
    List Int → Nat → ℚ → Int → List Dbl → Option (List Dbl)
  | [], _, _, _, out => some out
  | k :: ks, i, sum_label, cur_left, out =>
    let cur_k := if k > num_data then num_data else k
    match pairLoop label sorted_idx num_data (cur_k - cur_left).toNat cur_left sum_label with
    | none => none
    | some sum_label1 =>
      match vset out i (Dbl.div (Dbl.fin sum_label1) ((cur_k * 2 : Int) : ℚ)) with
      | none => none
      | some out1 => cutoffLoop label sorted_idx num_data ks (i + 1) sum_label1 cur_k out1

/-- Lines 65-88: `CalAvgdiffAtK(ks, label, score, num_data, out)`; the result is the
vector `*out` after the call, or `none` when a vector was accessed out of bounds. -/
def CalAvgdiffAtK (ks : List Int) (label : Int → ℚ) (score : Int → ℚ) (num_data : Int)
    (out : List Dbl) : Option (List Dbl) :=
  cutoffLoop label (sortedIdx score num_data) num_data ks 0 0 0 out

/-! ### Reference quantities for `CalAvgdiffAtK` -/

/-- The ranking `r`: the index of the item at position `p` of the descending score order. -/
def rank (score : Int → ℚ) (num_data : Int) (p : Nat) : Int :=
  (sortedIdx score num_data).getD p 0

/-- The cumulative pair sum `S(k)`: the sum over `j < k` of
`label[r(j)] - label[r(N - 1 - j)]`. -/
def pairSum (label score : Int → ℚ) (num_data : Int) (k : Nat) : ℚ :=
  ∑ j in Finset.range k,
    (label (rank score num_data j) - label (rank score num_data (num_data.toNat - 1 - j)))

/-- The values that the cutoff loop writes, in the order of the cutoffs, without the
output vector: the same loop as `cutoffLoop` with the writes collected in a list. -/
def cutoffVals (label : Int → ℚ) (sorted_idx : List Int) (num_data : Int) :
    List Int → ℚ → Int → Option (List Dbl)
  | [], _, _ => some []
  | k :: ks, sum_label, cur_left =>
    let cur_k := if k > num_data then num_data else k
    match pairLoop label sorted_idx num_data (cur_k - cur_left).toNat cur_left sum_label with
    | none => none
    | some sum_label1 =>
      (cutoffVals label sorted_idx num_data ks sum_label1 cur_k).map
        (fun vs => Dbl.div (Dbl.fin sum_label1) ((cur_k * 2 : Int) : ℚ) :: vs)

/-- Pointer to the first element of an array literal (reads beyond it give `0`). -/
def ptr (xs : List ℚ) : Int → ℚ := fun i => if 0 ≤ i then xs.getD i.toNat 0 else 0

/-! ## The metric object -/

/-- The part of `Metadata` the metric reads: `label()`, `query_boundaries()` (a null
pointer is `none`), `num_queries()` and `query_weights()` (a null pointer is `none`). -/
structure Metadata where
  label : Int → ℚ
  query_boundaries : Option (Nat → Int)
  num_queries : Nat
  query_weights : Option (Nat → ℚ)

/-- The private members of `TopavgdiffMetric` (lines 129-145). -/
structure TopavgdiffMetric where
  num_data_ : Int
  label_ : Int → ℚ
  query_boundaries_ : Option (Nat → Int)
  num_queries_ : Nat
  query_weights_ : Option (Nat → ℚ)
  sum_query_weights_ : ℚ
  eval_at_ : List Int
  num_threads_ : Nat
  name_ : List String

/-- Lines 17-26: the constructor; `eval_at` is `config.eval_at` and `num_threads` the value
of `omp_get_num_threads()`.  The members that the constructor leaves unset get a placeholder,
`name_` is the empty vector. -/
def TopavgdiffMetric.new (eval_at : List Int) (num_threads : Nat) : TopavgdiffMetric where
  num_data_ := 0
  label_ := fun _ => 0
  query_boundaries_ := none
  num_queries_ := 0
  query_weights_ := none
  sum_query_weights_ := 0
  eval_at_ := eval_at
  num_threads_ := num_threads
  name_ := []

/-- Lines 31-55: `Init(metadata, num_data)`.  `Log::Fatal` throws, which is the `error`
outcome; otherwise the initialised object is returned. -/
def TopavgdiffMetric.Init (self : TopavgdiffMetric) (metadata : Metadata) (num_data : Int) :
    Except String TopavgdiffMetric :=
  let name1 := self.name_ ++ self.eval_at_.map (fun k => "topavgdiff@" ++ toString k)
  match metadata.query_boundaries with
  | none => Except.error "For MAP metric, there should be query information"
  | some qb =>
    let sum_query_weights1 : ℚ :=
      match metadata.query_weights with
      | none => (metadata.num_queries : ℚ)
      | some w => (List.range metadata.num_queries).foldl (fun s i => s + w i) 0
    Except.ok
      { num_data_ := num_data
        label_ := metadata.label
        query_boundaries_ := some qb
        num_queries_ := metadata.num_queries
        query_weights_ := metadata.query_weights
        sum_query_weights_ := sum_query_weights1
        eval_at_ := self.eval_at_
        num_threads_ := self.num_threads_
        name_ := name1 }

/-! ## `TopavgdiffMetric::Eval` -/

/-- Counted loop `for (i = start; i < start + n; ++i) body(i)` over a state, where the
body may fail. -/
def forLoop {σ : Type} (body : Nat → σ → Option σ) : Nat → Nat → σ → Option σ
  | 0, _, s => some s
  | n + 1, i, s =>
    match body i s with
    | none => none
    | some s1 => forLoop body n (i + 1) s1

/-- Buffers of the parallel region of `Eval`: the shared `result_buffer_` (one row per
thread) and the `firstprivate` copy of `tmp_map` that each thread owns. -/
structure EvalState where
  result_buffer_ : List (List Dbl)
  tmp_map : Nat → List Dbl

/-- Lines 103 and 113: the statement `result_buffer_[tid][j] += term(tmp_map[j])`. -/
def addIntoBody (term : Dbl → Dbl) (tmp_map : List Dbl) (tid : Nat) (j : Nat)
    (result_buffer_ : List (List Dbl)) : Option (List (List Dbl)) :=
  match result_buffer_[tid]?, tmp_map[j]? with
  | some row, some t =>
    match row[j]? with
    | some r => some (result_buffer_.set tid (row.set j (r + term t)))
    | none => none
  | _, _ => none

/-- Lines 102-104 and 112-114: `result_buffer_[tid][j] += term(tmp_map[j])` for every
`j < eval_at_.size()`; `term` is the identity without weights and the multiplication by
`query_weights_[i]` with weights. -/
def addInto (size : Nat) (term : Dbl → Dbl) (tmp_map : List Dbl) (tid : Nat)
    (result_buffer_ : List (List Dbl)) : Option (List (List Dbl)) :=
  forLoop (addIntoBody term tmp_map tid) size 0 result_buffer_

/-- The term that `Eval` adds for an entry `t = tmp_map[j]` of the result of group `i`:
`t` itself when `query_weights_` is null (line 103), `t * query_weights_[i]` otherwise
(line 113). -/
def weighted (query_weights_ : Option (Nat → ℚ)) (i : Nat) (t : Dbl) : Dbl :=
  match query_weights_ with
  | none => t
  | some w => Dbl.scale t (w i)

/-- Lines 98-105 and 108-115: the body of the parallel loop for group `i`, run by
thread `tid`. -/
def evalIter (self : TopavgdiffMetric) (query_boundaries_ : Nat → Int) (score : Int → ℚ)
    (i tid : Nat) (st : EvalState) : Option EvalState :=
  match CalAvgdiffAtK self.eval_at_
      (fun t => self.label_ (query_boundaries_ i + t))
      (fun t => score (query_boundaries_ i + t))
      (query_boundaries_ (i + 1) - query_boundaries_ i) (st.tmp_map tid) with
  | none => none
  | some tmp1 =>
    match addInto self.eval_at_.length (weighted self.query_weights_ i) tmp1 tid
        st.result_buffer_ with
    | none => none
    | some buf1 =>
      some { result_buffer_ := buf1, tmp_map := Function.update st.tmp_map tid tmp1 }

/-- The parallel loop of `Eval` as the sequence of its iterations: `order` lists the group
indices in the order in which their iterations take effect and `tid i` is the thread that
runs iteration `i`.  Threads write only their own row of `result_buffer_` and their own
`tmp_map`, so every parallel run is such a sequence. -/
def groupLoop (self : TopavgdiffMetric) (query_boundaries_ : Nat → Int) (score : Int → ℚ)
    (tid : Nat → Nat) : List Nat → EvalState → Option EvalState
  | [], st => some st
  | i :: rest, st =>
    match evalIter self query_boundaries_ score i (tid i) st with
    | none => none
    | some st1 => groupLoop self query_boundaries_ score tid rest st1

/-- The vector of the given entries, provided that every one of them was computed without
a failure. -/
def allSome {α : Type} : List (Option α) → Option (List α)
  | [] => some []
  | none :: _ => none
  | some a :: xs => (allSome xs).map (fun rest => a :: rest)

/-- Line 121: the statement `result[j] += result_buffer_[i][j]`, on the value `r` of
`result[j]`. -/
def finalEntryBody (result_buffer_ : List (List Dbl)) (j : Nat) (i : Nat) (r : Dbl) :
    Option Dbl :=
  match result_buffer_[i]? with
  | some row =>
    match row[j]? with
    | some x => some (r + x)
    | none => none
  | none => none

/-- Lines 120-123: `result[j]`, starting from `0.0`, gets column `j` of `result_buffer_`
added over the threads and is then divided by `sum_query_weights_`. -/
def finalEntry (self : TopavgdiffMetric) (result_buffer_ : List (List Dbl)) (j : Nat) :
    Option Dbl :=
  match forLoop (finalEntryBody result_buffer_ j) self.num_threads_ 0 (0 : Dbl) with
  | none => none
  | some r => some (Dbl.div r self.sum_query_weights_)

/-- Lines 118-125: the vector `result`, one entry per cutoff. -/
def finalAverage (self : TopavgdiffMetric) (result_buffer_ : List (List Dbl)) :
    Option (List Dbl) :=
  allSome ((List.range self.eval_at_.length).map (finalEntry self result_buffer_))

/-- Lines 89-126: `Eval(score, _)` under the schedule `(order, tid)` of the parallel loop;
`none` when a vector or the null boundary pointer is accessed. -/
def TopavgdiffMetric.Eval (self : TopavgdiffMetric) (score : Int → ℚ) (order : List Nat)
    (tid : Nat → Nat) : Option (List Dbl) :=
  match self.query_boundaries_ with
  | none => none
  | some qb =>
    let zeros : List Dbl := List.replicate self.eval_at_.length 0
    let st0 : EvalState :=
      { result_buffer_ := List.replicate self.num_threads_ zeros, tmp_map := fun _ => zeros }
    match groupLoop self qb score tid order st0 with
    | none => none
    | some st => finalAverage self st.result_buffer_

/-- Schedules of the parallel loop over `n` groups on `W` threads: every group index is
run exactly once, by a thread of the team. -/
def validSchedule (n W : Nat) (order : List Nat) (tid : Nat → Nat) : Prop :=
  order.Perm (List.range n) ∧ ∀ i, i < n → tid i < W

/-- Pointer to the first element of a literal array of group boundaries. -/
def ptrInt (xs : List Int) : Nat → Int := fun i => xs.getD i 0

/-- Pointer to the first element of a literal array of group weights. -/
def ptrW (xs : List ℚ) : Nat → ℚ := fun i => xs.getD i 0

/-- Order in which a stable descending sort places two indices: higher score first, the
smaller index first among equal scores. -/
def rankedBefore (score : Int → ℚ) (a b : Int) : Prop :=
  score a > score b ∨ (score a = score b ∧ a < b)

/-! ### Reference quantities for `Eval` -/

/-- The `CalAvgdiffAtK` result `r_i` of group `i`: the call that `Eval` makes for the
group, on a zero output vector. -/
def groupResult (ks : List Int) (label : Int → ℚ) (qb : Nat → Int) (score : Int → ℚ)
    (i : Nat) : Option (List Dbl) :=
  CalAvgdiffAtK ks (fun t => label (qb i + t)) (fun t => score (qb i + t))
    (qb (i + 1) - qb i) (List.replicate ks.length 0)

/-- The weight `w[i]` of group `i`: `1` when the weights are absent. -/
def groupWeight (qw : Option (Nat → ℚ)) (i : Nat) : ℚ :=
  match qw with
  | none => 1
  | some w => w i

/-- Sum of column `j` of the per-thread buffers. -/
def colSum (buf : List (List Dbl)) (j : Nat) : Dbl :=
  (buf.map (fun row => row.getD j 0)).sum

/-- Shape of the buffers during the parallel loop: `W` rows of `K` entries and a private
`tmp_map` of `K` entries for every thread. -/
def EvalInv (W K : Nat) (st : EvalState) : Prop :=
  st.result_buffer_.length = W ∧ (∀ row ∈ st.result_buffer_, row.length = K) ∧
    ∀ t, (st.tmp_map t).length = K

/-- The result vector of `Eval` in closed form: when every group has a `CalAvgdiffAtK`
result, entry `j` is the weighted sum of the entries `j` of these results over the groups
`0 .. n - 1`, divided by `sumw`. -/
def evalClosed (ks : List Int) (label : Int → ℚ) (qb : Nat → Int) (n : Nat)
    (qw : Option (Nat → ℚ)) (sumw : ℚ) (score : Int → ℚ) : Option (List Dbl) :=
  if (List.range n).all (fun i => (groupResult ks label qb score i).isSome) then
    some ((List.range ks.length).map (fun j =>
      Dbl.div (((List.range n).map (fun i =>
        weighted qw i (((groupResult ks label qb score i).getD []).getD j 0))).sum) sumw))
  else none

/-! ### Example data -/

/-- Two groups of two items: labels `[5,1]` and `[1,5]`, with the group weights `ws` when
given. -/
def exampleMetadata (ws : Option (List ℚ)) : Metadata where
  label := ptr [5, 1, 1, 5]
  query_boundaries := some (ptrInt [0, 2, 4])
  num_queries := 2
  query_weights := ws.map ptrW

/-- One group of two items with the labels `[5,1]`, with the group weight `c` when given. -/
def exampleSingleGroup (c : Option ℚ) : Metadata where
  label := ptr [5, 1]
  query_boundaries := some (ptrInt [0, 2])
  num_queries := 1
  query_weights := c.map (fun x => ptrW [x])

/-- The `CalAvgdiffAtK` results for the cutoff `1` of the two groups of `exampleMetadata`
under the scores `[2,1,2,1]`. -/
def exampleResults (i : Nat) : List Dbl :=
  if i = 0 then [Dbl.fin 2] else [Dbl.fin (-2)]

/-! ## `GetName` and `factor_to_bigger_better` -/

/-- Lines 57-59: `GetName()` returns the member `name_`. -/
def TopavgdiffMetric.GetName (self : TopavgdiffMetric) : List String :=
  self.name_

/-- Lines 61-63: `factor_to_bigger_better()` is the constant `1.0`. -/
def TopavgdiffMetric.factor_to_bigger_better (_self : TopavgdiffMetric) : ℚ :=
  1

/-- Cutoff lists on which the cutoff loop, entered with `cur_left`, never starts its inner
loop at a negative position: at every cutoff the effective value `min(k, num_data)` is at
most `cur_left` (no inner iteration) or `cur_left` is not negative. -/
def safeCutoffs (num_data : Int) : Int → List Int → Prop
  | _, [] => True
  | cur_left, k :: ks =>
    (min k num_data ≤ cur_left ∨ 0 ≤ cur_left) ∧ safeCutoffs num_data (min k num_data) ks

/-- The value `S(c) / (2 c)` of group `i` for the cutoff `k`, with the effective cutoff
`c = min(k, N_i)` and `N_i = qb (i + 1) - qb i` the size of the group. -/
def groupValue (label score : Int → ℚ) (qb : Nat → Int) (i : Nat) (k : Int) : ℚ :=
  pairSum (fun t => label (qb i + t)) (fun t => score (qb i + t)) (qb (i + 1) - qb i)
      (min k (qb (i + 1) - qb i)).toNat
    / (2 * ((min k (qb (i + 1) - qb i) : Int) : ℚ))

/-! # Theorems -/

@[simp] theorem Dbl.fin_add_fin (a b : ℚ) : Dbl.fin a + Dbl.fin b = Dbl.fin (a + b) := rfl
theorem Dbl.zero_eq : (0 : Dbl) = Dbl.fin 0 := rfl
@[simp] theorem Dbl.nan_add (a : Dbl) : Dbl.nan + a = Dbl.nan := rfl
@[simp] theorem Dbl.add_nan (a : Dbl) : a + Dbl.nan = Dbl.nan := by cases a <;> rfl

/-! ### The stable sort -/

theorem stableInsert_perm {α : Type} (comp : α → α → Bool) (x : α) (l : List α) :
    (stableInsert comp x l).Perm (x :: l) := by
  induction l with
  | nil => simp [stableInsert]
  | cons y ys ih =>
    simp only [stableInsert]
    split
    · exact (List.Perm.cons y ih).trans (List.Perm.swap x y ys)
    · exact List.Perm.refl _

theorem stable_sort_perm {α : Type} (comp : α → α → Bool) (l : List α) :
    (stable_sort comp l).Perm l := by
  induction l with
  | nil => simp [stable_sort]
  | cons x xs ih =>
    simp only [stable_sort]
    exact (stableInsert_perm comp x _).trans (List.Perm.cons x ih)

theorem sortedIdx_perm (score : Int → ℚ) (N : Int) :
    (sortedIdx score N).Perm ((List.range N.toNat).map Int.ofNat) :=
  stable_sort_perm _ _

theorem sortedIdx_length (score : Int → ℚ) (N : Int) :
    (sortedIdx score N).length = N.toNat := by
  rw [(sortedIdx_perm score N).length_eq]; simp

theorem mem_sortedIdx (score : Int → ℚ) (N : Int) (a : Int) :
    a ∈ sortedIdx score N ↔ 0 ≤ a ∧ a < N := by
  rw [(sortedIdx_perm score N).mem_iff]
  simp only [List.mem_map, List.mem_range]
  constructor
  · rintro ⟨n, hn, rfl⟩
    have : (n : Int) < N := by omega
    exact ⟨Int.ofNat_nonneg n, this⟩
  · rintro ⟨h0, h1⟩
    refine ⟨a.toNat, by omega, ?_⟩
    simp [Int.toNat_of_nonneg h0]


theorem stableInsert_pairwise (score : Int → ℚ) (x : Int) (l : List Int)
    (hl : l.Pairwise (rankedBefore score)) (hx : ∀ y ∈ l, x < y) :
    (stableInsert (fun a b => decide (score a > score b)) x l).Pairwise (rankedBefore score) := by
  induction l with
  | nil => simp [stableInsert]
  | cons y ys ih =>
    simp only [stableInsert]
    rw [List.pairwise_cons] at hl
    split
    · rename_i hc
      have hc1 : score y > score x := by simpa using hc
      rw [List.pairwise_cons]
      refine ⟨?_, ih hl.2 (fun z hz => hx z (List.mem_cons_of_mem _ hz))⟩
      intro z hz
      rcases List.mem_cons.1 ((List.Perm.mem_iff (stableInsert_perm _ x ys)).1 hz) with hz1 | hz1
      · subst hz1
        exact Or.inl hc1
      · exact hl.1 z hz1
    · rename_i hc
      have hc1 : score y ≤ score x := by simpa using hc
      have hxy : x < y := hx y (List.mem_cons_self _ _)
      rw [List.pairwise_cons]
      refine ⟨?_, List.pairwise_cons.2 hl⟩
      intro z hz
      rcases List.mem_cons.1 hz with rfl | hz1
      · rcases lt_or_eq_of_le hc1 with h | h
        · exact Or.inl h
        · exact Or.inr ⟨h.symm, hxy⟩
      · have hxz : x < z := hx z (List.mem_cons_of_mem _ hz1)
        have hyz : score z ≤ score y := by
          rcases hl.1 z hz1 with h | h
          · exact le_of_lt h
          · exact le_of_eq h.1.symm
        rcases lt_or_eq_of_le (le_trans hyz hc1) with h | h
        · exact Or.inl h
        · exact Or.inr ⟨h.symm, hxz⟩

theorem stable_sort_pairwise (score : Int → ℚ) (l : List Int) (hl : l.Pairwise (· < ·)) :
    (stable_sort (fun a b => decide (score a > score b)) l).Pairwise (rankedBefore score) := by
  induction l with
  | nil => simp [stable_sort]
  | cons x xs ih =>
    simp only [stable_sort]
    rw [List.pairwise_cons] at hl
    refine stableInsert_pairwise score x _ (ih hl.2) ?_
    intro y hy
    exact hl.1 y ((stable_sort_perm _ xs).mem_iff.1 hy)

theorem sortedIdx_pairwise (score : Int → ℚ) (N : Int) :
    (sortedIdx score N).Pairwise (rankedBefore score) := by
  refine stable_sort_pairwise score _ ?_
  rw [List.pairwise_map]
  refine (List.pairwise_lt_range N.toNat).imp ?_
  intro a b hab
  exact Int.ofNat_lt.2 hab

/-! ### The loops of `CalAvgdiffAtK` -/

theorem vget_natCast {α : Type} (v : List α) (p : Nat) : vget v (p : Int) = v[p]? := by
  simp [vget]

theorem vget_of_lt (v : List Int) (p : Nat) (hp : p < v.length) :
    vget v (p : Int) = some (v.getD p 0) := by
  rw [vget_natCast, List.getD_eq_getElem?_getD, List.getElem?_eq_getElem hp]
  rfl

theorem vget_neg {α : Type} (v : List α) (i : Int) (hi : i < 0) : vget v i = none := by
  simp [vget, not_le.2 hi]

/-- The inner loop, started at position `a` for `n` iterations that stay inside the sorted
index vector, adds the pair differences of the positions `a .. a + n - 1`. -/
theorem pairLoop_eq (label : Int → ℚ) (sidx : List Int) (n : Nat) :
    ∀ (a : Nat) (s : ℚ), a + n ≤ sidx.length →
      pairLoop label sidx (sidx.length : Int) n (a : Int) s
        = some (s + ∑ t in Finset.range n,
            (label (sidx.getD (a + t) 0) - label (sidx.getD (sidx.length - 1 - (a + t)) 0))) := by
  induction n with
  | zero => intro a s _; simp [pairLoop]
  | succ n ih =>
    intro a s h
    have h1 : vget sidx (a : Int) = some (sidx.getD a 0) := vget_of_lt sidx a (by omega)
    have h2 : vget sidx ((sidx.length : Int) - (a : Int) - 1)
        = some (sidx.getD (sidx.length - 1 - a) 0) := by
      have : ((sidx.length : Int) - (a : Int) - 1) = ((sidx.length - 1 - a : Nat) : Int) := by
        omega
      rw [this]
      exact vget_of_lt sidx _ (by omega)
    have h3 : ((a : Int) + 1) = ((a + 1 : Nat) : Int) := by omega
    simp only [pairLoop, h1, h2]
    rw [h3, ih (a + 1) _ (by omega), Finset.sum_range_succ']
    simp only [Nat.add_zero]
    congr 1
    have : ∀ t, a + 1 + t = a + (t + 1) := by intro t; omega
    simp only [this]
    ring

theorem pairLoop_zero (label : Int → ℚ) (sidx : List Int) (N j : Int) (s : ℚ) :
    pairLoop label sidx N 0 j s = some s := rfl

theorem pairSum_succ_range (label score : Int → ℚ) (N : Int) (a n : Nat) :
    pairSum label score N a + ∑ t in Finset.range n,
        (label ((sortedIdx score N).getD (a + t) 0)
          - label ((sortedIdx score N).getD ((sortedIdx score N).length - 1 - (a + t)) 0))
      = pairSum label score N (a + n) := by
  unfold pairSum rank
  rw [Finset.sum_range_add, sortedIdx_length]

/-- The inner loop on the sorted indices of a group of size `N ≥ 0` extends `S(a)` to
`S(b)` for `a ≤ b ≤ N`. -/
theorem pairLoop_sortedIdx (label score : Int → ℚ) (N : Int) (a b : Nat) (hab : a ≤ b)
    (hb : (b : Int) ≤ N) :
    pairLoop label (sortedIdx score N) N (b - a) (a : Int) (pairSum label score N a)
      = some (pairSum label score N b) := by
  have hN : N = ((sortedIdx score N).length : Int) := by
    rw [sortedIdx_length]; omega
  have hlen : a + (b - a) ≤ (sortedIdx score N).length := by
    rw [sortedIdx_length]; omega
  have := pairLoop_eq label (sortedIdx score N) (b - a) a (pairSum label score N a) hlen
  rw [← hN] at this
  rw [this, pairSum_succ_range]
  congr 2
  omega

/-! ### The output vector -/

theorem take_succ_set {α : Type} (l : List α) (i : Nat) (v : α) (h : i < l.length) :
    (l.set i v).take (i + 1) = l.take i ++ [v] := by
  induction l generalizing i with
  | nil => simp at h
  | cons x xs ih =>
    cases i with
    | zero => simp
    | succ i =>
      simp only [List.length_cons] at h
      simp [ih i (by omega)]

theorem drop_set_lt {α : Type} (l : List α) (i j : Nat) (v : α) (h : i < j) :
    (l.set i v).drop j = l.drop j := by
  induction l generalizing i j with
  | nil => simp
  | cons x xs ih =>
    cases j with
    | zero => omega
    | succ j =>
      cases i with
      | zero => simp
      | succ i => simp [ih i j (by omega)]

theorem cutoffVals_length (label : Int → ℚ) (sidx : List Int) (N : Int) :
    ∀ (ks : List Int) (s : ℚ) (left : Int) (vs : List Dbl),
      cutoffVals label sidx N ks s left = some vs → vs.length = ks.length := by
  intro ks
  induction ks with
  | nil => intro s left vs h; simp [cutoffVals] at h; simp [← h]
  | cons k ks ih =>
    intro s left vs h
    simp only [cutoffVals] at h
    split at h
    · cases h
    · rename_i s1 hs1
      rcases hv : cutoffVals label sidx N ks s1 (if k > N then N else k) with _ | vs1
      · rw [hv] at h; cases h
      · rw [hv] at h
        simp only [Option.map_some', Option.some.injEq] at h
        rw [← h, List.length_cons, List.length_cons, ih _ _ _ hv]

/-- The cutoff loop writes the values of `cutoffVals` to the positions `i, i + 1, ...` of the
output vector and leaves the rest of it unchanged. -/
theorem cutoffLoop_eq (label : Int → ℚ) (sidx : List Int) (N : Int) :
    ∀ (ks : List Int) (i : Nat) (s : ℚ) (left : Int) (out : List Dbl),
      i + ks.length ≤ out.length →
      cutoffLoop label sidx N ks i s left out
        = (cutoffVals label sidx N ks s left).map
            (fun vs => out.take i ++ vs ++ out.drop (i + ks.length)) := by
  intro ks
  induction ks with
  | nil => intro i s left out _; simp [cutoffLoop, cutoffVals]
  | cons k ks ih =>
    intro i s left out h
    simp only [List.length_cons] at h
    simp only [cutoffLoop, cutoffVals]
    rcases hp : pairLoop label sidx N ((if k > N then N else k) - left).toNat left s with _ | s1
    · simp
    · have hi : i < out.length := by omega
      simp only [vset, hi, if_true]
      rw [ih (i + 1) s1 _ _ (by simp; omega)]
      rcases cutoffVals label sidx N ks s1 (if k > N then N else k) with _ | vs
      · simp
      · simp only [Option.map_some', Option.some.injEq, List.length_cons]
        have h2 : i + (ks.length + 1) = i + 1 + ks.length := by omega
        rw [take_succ_set _ _ _ hi, drop_set_lt _ _ _ _ (by omega), h2]
        simp

/-- With an output vector of the size of the cutoff list, `CalAvgdiffAtK` returns exactly
the written values: the previous content of the vector does not matter. -/
theorem CalAvgdiffAtK_eq (ks : List Int) (label score : Int → ℚ) (N : Int) (out : List Dbl)
    (hout : out.length = ks.length) :
    CalAvgdiffAtK ks label score N out = cutoffVals label (sortedIdx score N) N ks 0 0 := by
  unfold CalAvgdiffAtK
  rw [cutoffLoop_eq _ _ _ _ _ _ _ _ (by omega)]
  rcases cutoffVals label (sortedIdx score N) N ks 0 0 with _ | vs
  · rfl
  · simp [← hout]

/-! ### Values written for cutoffs whose clamped values do not decrease -/

theorem clamp_eq_min (k N : Int) : (if k > N then N else k) = min k N := by
  split
  · rw [min_eq_right]; omega
  · rw [min_eq_left]; omega

/-- Value reported for the effective cutoff `c` of a group: `S(c) / (2 * c)`. -/
theorem cutoffVals_ascending (label score : Int → ℚ) (N : Int) (hN : 1 ≤ N) :
    ∀ (ks : List Int) (left : Nat), (∀ k ∈ ks, 0 < k) → (∀ k ∈ ks, (left : Int) ≤ min k N) →
      (ks.map (fun k => min k N)).Pairwise (· ≤ ·) →
      cutoffVals label (sortedIdx score N) N ks (pairSum label score N left) (left : Int)
        = some (ks.map (fun k =>
            Dbl.fin (pairSum label score N (min k N).toNat / (2 * ((min k N : Int) : ℚ))))) := by
  intro ks
  induction ks with
  | nil => intro left _ _ _; simp [cutoffVals]
  | cons k ks ih =>
    intro left hpos hleft hasc
    have hk : 0 < k := hpos k (List.mem_cons_self _ _)
    have hl : (left : Int) ≤ min k N := hleft k (List.mem_cons_self _ _)
    have hc1 : 1 ≤ min k N := le_min (by omega) hN
    have hcN : min k N ≤ N := min_le_right _ _
    simp only [List.map_cons, List.pairwise_cons, List.mem_map, forall_exists_index, and_imp,
      forall_apply_eq_imp_iff₂] at hasc
    simp only [cutoffVals, clamp_eq_min]
    have hn : (min k N - (left : Int)).toNat = (min k N).toNat - left := by omega
    have hcast : (((min k N).toNat : Nat) : Int) = min k N := by omega
    rw [hn, pairLoop_sortedIdx label score N left (min k N).toNat (by omega) (by omega)]
    have := ih (min k N).toNat (fun k1 h1 => hpos k1 (List.mem_cons_of_mem _ h1))
      (fun k1 h1 => by rw [hcast]; exact hasc.1 k1 h1) hasc.2
    rw [hcast] at this
    simp only [this, Option.map_some', List.map_cons, Option.some.injEq, List.cons.injEq,
      and_true]
    have hne : (((min k N * 2 : Int)) : ℚ) ≠ 0 := by
      have : (min k N * 2 : Int) ≠ 0 := by omega
      exact_mod_cast this
    simp only [Dbl.div, hne, if_false]
    congr 2
    push_cast
    ring

theorem pairwise_clamp (N : Int) (ks : List Int) (h : ks.Pairwise (· ≤ ·)) :
    (ks.map (fun k => min k N)).Pairwise (· ≤ ·) := by
  rw [List.pairwise_map]
  exact h.imp (fun hab => min_le_min_right N hab)

/-- Values of `CalAvgdiffAtK` for positive cutoffs whose clamped values `min(k, N)` do not
decrease along the list. -/
theorem CalAvgdiffAtK_ascending (label score : Int → ℚ) (N : Int) (hN : 1 ≤ N)
    (ks : List Int) (hpos : ∀ k ∈ ks, 0 < k)
    (hasc : (ks.map (fun k => min k N)).Pairwise (· ≤ ·))
    (out : List Dbl) (hout : out.length = ks.length) :
    CalAvgdiffAtK ks label score N out
      = some (ks.map (fun k =>
          Dbl.fin (pairSum label score N (min k N).toNat / (2 * ((min k N : Int) : ℚ))))) := by
  rw [CalAvgdiffAtK_eq ks label score N out hout]
  have h0 : pairSum label score N 0 = 0 := by simp [pairSum]
  have := cutoffVals_ascending label score N hN ks 0 hpos
    (fun k hk => by
      have := hpos k hk
      simp only [Nat.cast_zero]
      exact le_min (by omega) (by omega)) hasc
  rw [h0] at this
  exact this

/-! ## C1: values for non-decreasing positive cutoffs -/

/-- C1: for a group of size `N ≥ 1` and a non-decreasing list `ks` of positive cutoffs,
`CalAvgdiffAtK` writes at every position `i` the value `S(k) / (2 * k)` with
`k = min(ks[i], N)`, where `S` is the cumulative pair sum along the stable descending
score ranking. -/
theorem C1_CalAvgdiffAtK_values (label score : Int → ℚ) (N : Int) (hN : 1 ≤ N)
    (ks : List Int) (hpos : ∀ k ∈ ks, 0 < k) (hasc : ks.Pairwise (· ≤ ·))
    (out : List Dbl) (hout : out.length = ks.length) :
    CalAvgdiffAtK ks label score N out
      = some (ks.map (fun k =>
          Dbl.fin (pairSum label score N (min k N).toNat / (2 * ((min k N : Int) : ℚ))))) :=
  CalAvgdiffAtK_ascending label score N hN ks hpos (pairwise_clamp N ks hasc) out hout

/-- C1 at labels `[1,2,3,4]`, scores `[4,3,2,1]`, cutoffs `[1,2]`: the two values are
`-1.5` and `-1.0`. -/
theorem C1_CalAvgdiffAtK_values_witness :
    CalAvgdiffAtK [1, 2] (ptr [1, 2, 3, 4]) (ptr [4, 3, 2, 1]) 4 [0, 0]
        = some ([1, 2].map (fun k =>
            Dbl.fin (pairSum (ptr [1, 2, 3, 4]) (ptr [4, 3, 2, 1]) 4 (min k 4).toNat
              / (2 * ((min k 4 : Int) : ℚ)))))
      ∧ CalAvgdiffAtK [1, 2] (ptr [1, 2, 3, 4]) (ptr [4, 3, 2, 1]) 4 [0, 0]
        = some [Dbl.fin (-3 / 2), Dbl.fin (-1)] := by
  refine ⟨C1_CalAvgdiffAtK_values (ptr [1, 2, 3, 4]) (ptr [4, 3, 2, 1]) 4 (by decide) [1, 2]
    (by decide) (by decide) [0, 0] rfl, ?_⟩
  simp [CalAvgdiffAtK, cutoffLoop, pairLoop, sortedIdx, stable_sort, stableInsert, vget, vset,
    ptr, Dbl.div, List.range, List.range.loop, Int.toNat]
  norm_num

/-! ## C2: order of the cutoffs -/

/-- C2 fails as stated: with the cutoffs `[2, 1]` on labels `[1,2,3,4]`, scores `[4,3,2,1]`
the entry for the cutoff `1` is `-2`, while the single cutoff `[1]` gives `-1.5`. -/
theorem C2_cutoff_order_counterexample :
    CalAvgdiffAtK [2, 1] (ptr [1, 2, 3, 4]) (ptr [4, 3, 2, 1]) 4 [0, 0]
        = some [Dbl.fin (-1), Dbl.fin (-2)]
      ∧ CalAvgdiffAtK [1] (ptr [1, 2, 3, 4]) (ptr [4, 3, 2, 1]) 4 [0]
        = some [Dbl.fin (-3 / 2)]
      ∧ Dbl.fin (-2) ≠ Dbl.fin (-3 / 2) := by
  refine ⟨?_, ?_, ?_⟩
  · simp [CalAvgdiffAtK, cutoffLoop, pairLoop, sortedIdx, stable_sort, stableInsert, vget,
      vset, ptr, Dbl.div, List.range, List.range.loop, Int.toNat]
    norm_num
  · simp [CalAvgdiffAtK, cutoffLoop, pairLoop, sortedIdx, stable_sort, stableInsert, vget,
      vset, ptr, Dbl.div, List.range, List.range.loop, Int.toNat]
    norm_num
  · intro h
    injection h with h
    norm_num at h

/-- C2, amended: for a group of size `N ≥ 1` and positive cutoffs whose effective values
`min(ks[i], N)` do not decrease along the list, the output has the length of `ks` and its
entry `i` is the value that the single cutoff `[ks[i]]` gives on the same group. -/
theorem C2_cutoff_order_ascending (label score : Int → ℚ) (N : Int) (hN : 1 ≤ N)
    (ks : List Int) (hpos : ∀ k ∈ ks, 0 < k)
    (hasc : (ks.map (fun k => min k N)).Pairwise (· ≤ ·))
    (out : List Dbl) (hout : out.length = ks.length)
    (out1 : List Dbl) (hout1 : out1.length = 1) :
    ∃ vs, CalAvgdiffAtK ks label score N out = some vs ∧ vs.length = ks.length ∧
      ∀ (i : Nat) (hi : i < ks.length), ∃ v, vs[i]? = some v ∧
        CalAvgdiffAtK [ks[i]] label score N out1 = some [v] := by
  refine ⟨_, CalAvgdiffAtK_ascending label score N hN ks hpos hasc out hout, by simp, ?_⟩
  intro i hi
  refine ⟨_, by rw [List.getElem?_map, List.getElem?_eq_getElem hi]; rfl, ?_⟩
  rw [CalAvgdiffAtK_ascending label score N hN [ks[i]]
    (by intro k hk; rw [List.mem_singleton] at hk; subst hk; exact hpos _ (List.getElem_mem _))
    (by simp) out1 (by simpa using hout1)]
  rfl

/-- C2, amended, at the cutoffs `[5, 3]` on a group of two items. -/
theorem C2_cutoff_order_ascending_witness :
    (1 : Int) ≤ 2 ∧ (∀ k ∈ ([5, 3] : List Int), 0 < k) ∧
      ∃ vs, CalAvgdiffAtK [5, 3] (ptr [5, 1]) (ptr [2, 1]) 2 [0, 0] = some vs ∧
        vs.length = ([5, 3] : List Int).length ∧
        ∀ (i : Nat) (hi : i < ([5, 3] : List Int).length), ∃ v, vs[i]? = some v ∧
          CalAvgdiffAtK [([5, 3] : List Int)[i]] (ptr [5, 1]) (ptr [2, 1]) 2 [0] = some [v] :=
  ⟨by decide, by decide,
    C2_cutoff_order_ascending (ptr [5, 1]) (ptr [2, 1]) 2 (by decide) [5, 3] (by decide)
      (by decide) [0, 0] rfl [0] rfl⟩

/-! ## C4: clamp law -/

/-- C4: for a cutoff `K` above the group size `N`, `CalAvgdiffAtK` with the single cutoff
`K` returns what it returns with the single cutoff `N`. -/
theorem C4_clamp_law (label score : Int → ℚ) (N K : Int) (hK : K > N) (out : List Dbl) :
    CalAvgdiffAtK [K] label score N out = CalAvgdiffAtK [N] label score N out := by
  simp [CalAvgdiffAtK, cutoffLoop, hK]

/-- C4 at a group of two items and the cutoff `5`: the value is the one of the cutoff `2`. -/
theorem C4_clamp_law_witness :
    (5 : Int) > 2 ∧
      CalAvgdiffAtK [5] (ptr [5, 1]) (ptr [2, 1]) 2 [0]
        = CalAvgdiffAtK [2] (ptr [5, 1]) (ptr [2, 1]) 2 [0] :=
  ⟨by decide, C4_clamp_law (ptr [5, 1]) (ptr [2, 1]) 2 5 (by decide) [0]⟩

/-! ## C5: tie-break stability -/

theorem rankedBefore_asymm (score : Int → ℚ) (a b : Int) (h : rankedBefore score a b) :
    ¬ rankedBefore score b a := by
  intro h1
  rcases h with h | ⟨he, hl⟩ <;> rcases h1 with h1 | ⟨he1, hl1⟩
  · exact lt_asymm h h1
  · rw [he1] at h; exact lt_irrefl _ h
  · rw [he] at h1; exact lt_irrefl _ h1
  · omega

/-- Positions in the ranking of two indices of which the first is ranked before the
second. -/
theorem sortedIdx_position_lt (score : Int → ℚ) (N : Int) (a b : Int)
    (hab : rankedBefore score a b) (p q : Nat)
    (hp : (sortedIdx score N)[p]? = some a) (hq : (sortedIdx score N)[q]? = some b) :
    p < q := by
  have hpw := sortedIdx_pairwise score N
  rw [List.pairwise_iff_getElem] at hpw
  obtain ⟨hp1, hp2⟩ := List.getElem?_eq_some_iff.1 hp
  obtain ⟨hq1, hq2⟩ := List.getElem?_eq_some_iff.1 hq
  rcases Nat.lt_trichotomy p q with h | h | h
  · exact h
  · subst h
    rw [hp2] at hq2
    subst hq2
    exact absurd hab (rankedBefore_asymm score _ _ hab)
  · have := hpw q p hq1 hp1 h
    rw [hp2, hq2] at this
    exact absurd hab (rankedBefore_asymm score _ _ this)

/-- C5: in the ranking built by `CalAvgdiffAtK`, two indices `a < b` of the group with equal
scores both occur, and `a` always stands before `b`; and for a two-item group with equal
scores the cutoff `1` gives `(label[0] - label[1]) / 2`. -/
theorem C5_tie_break_stability (score : Int → ℚ) (N : Int) :
    (∀ a b : Int, 0 ≤ a → a < b → b < N → score a = score b →
      (∃ p q : Nat, (sortedIdx score N)[p]? = some a ∧ (sortedIdx score N)[q]? = some b) ∧
      (∀ p q : Nat, (sortedIdx score N)[p]? = some a → (sortedIdx score N)[q]? = some b →
        p < q)) ∧
    (∀ (label : Int → ℚ) (out : List Dbl), out.length = 1 → score 0 = score 1 →
      CalAvgdiffAtK [1] label score 2 out = some [Dbl.fin ((label 0 - label 1) / 2)]) := by
  constructor
  · intro a b ha hab hb heq
    constructor
    · have h1 : a ∈ sortedIdx score N := (mem_sortedIdx score N a).2 ⟨ha, by omega⟩
      have h2 : b ∈ sortedIdx score N := (mem_sortedIdx score N b).2 ⟨by omega, hb⟩
      obtain ⟨p, hp⟩ := List.mem_iff_getElem?.1 h1
      obtain ⟨q, hq⟩ := List.mem_iff_getElem?.1 h2
      exact ⟨p, q, hp, hq⟩
    · intro p q hp hq
      exact sortedIdx_position_lt score N a b (Or.inr ⟨heq, hab⟩) p q hp hq
  · intro label out hout heq
    rw [CalAvgdiffAtK_eq [1] label score 2 out (by simpa using hout)]
    simp [cutoffVals, pairLoop, sortedIdx, stable_sort, stableInsert, vget, Dbl.div,
      List.range, List.range.loop, Int.toNat, heq]

/-- C5 at three items with the scores `[1, 2, 2]`: the tied items `1` and `2` are ranked in
this order. -/
theorem C5_tie_break_stability_witness :
    (∃ p q : Nat, (sortedIdx (ptr [1, 2, 2]) 3)[p]? = some 1 ∧
        (sortedIdx (ptr [1, 2, 2]) 3)[q]? = some 2) ∧
      (∀ p q : Nat, (sortedIdx (ptr [1, 2, 2]) 3)[p]? = some 1 →
        (sortedIdx (ptr [1, 2, 2]) 3)[q]? = some 2 → p < q) :=
  (C5_tie_break_stability (ptr [1, 2, 2]) 3).1 1 2 (by decide) (by decide) (by decide)
    (by simp [ptr])

/-! ## C6: group of size zero -/

/-- C6 fails as stated: for a group of size `0` and the cutoff `1` the output entry is the
result of `0.0 / 0`, not `0.0`. -/
theorem C6_empty_group_counterexample :
    CalAvgdiffAtK [1] (ptr []) (ptr []) 0 [0] = some [Dbl.nan]
      ∧ CalAvgdiffAtK [1] (ptr []) (ptr []) 0 [0] ≠ some [Dbl.fin 0] := by
  have h : CalAvgdiffAtK [1] (ptr []) (ptr []) 0 [0] = some [Dbl.nan] := by
    simp [CalAvgdiffAtK, cutoffLoop, pairLoop, vset, Dbl.div]
  refine ⟨h, ?_⟩
  rw [h]
  intro h1
  injection h1 with h1
  injection h1 with h1
  cases h1

theorem cutoffVals_empty (label : Int → ℚ) (sidx : List Int) :
    ∀ (ks : List Int), (∀ k ∈ ks, 0 ≤ k) →
      cutoffVals label sidx 0 ks 0 0 = some (List.replicate ks.length Dbl.nan) := by
  intro ks
  induction ks with
  | nil => intro _; simp [cutoffVals]
  | cons k ks ih =>
    intro h
    have hk : 0 ≤ k := h k (List.mem_cons_self _ _)
    have hc : (if k > 0 then (0 : Int) else k) = 0 := by
      split
      · rfl
      · omega
    simp only [cutoffVals, hc]
    simp [pairLoop, ih (fun k1 h1 => h k1 (List.mem_cons_of_mem _ h1)), Dbl.div,
      List.replicate_succ]

/-- C6, amended: for a group of size `0` and every list of non-negative cutoffs,
`CalAvgdiffAtK` divides `0.0` by `2 * 0` at every position: every output entry is the
invalid value of that division and none is `0.0`. -/
theorem C6_empty_group_invalid (label score : Int → ℚ) (ks : List Int)
    (hks : ∀ k ∈ ks, 0 ≤ k) (out : List Dbl) (hout : out.length = ks.length) :
    CalAvgdiffAtK ks label score 0 out = some (List.replicate ks.length Dbl.nan) := by
  rw [CalAvgdiffAtK_eq ks label score 0 out hout]
  exact cutoffVals_empty label _ ks hks

/-- C6, amended, at the cutoffs `[1, 3]`. -/
theorem C6_empty_group_invalid_witness :
    (∀ k ∈ ([1, 3] : List Int), 0 ≤ k) ∧
      CalAvgdiffAtK [1, 3] (ptr []) (ptr []) 0 [0, 0]
        = some (List.replicate ([1, 3] : List Int).length Dbl.nan) :=
  ⟨by decide, C6_empty_group_invalid (ptr []) (ptr []) [1, 3] (by decide) [0, 0] rfl⟩

/-! ## C8: equal labels -/

theorem getD_mem_sortedIdx (score : Int → ℚ) (N : Int) (p : Nat)
    (hp : p < (sortedIdx score N).length) :
    0 ≤ (sortedIdx score N).getD p 0 ∧ (sortedIdx score N).getD p 0 < N := by
  rw [← mem_sortedIdx score N, List.getD_eq_getElem _ _ hp]
  exact List.getElem_mem _

/-- With equal labels the inner loop, wherever it runs inside the group, leaves the sum
unchanged. -/
theorem pairLoop_const_label (label score : Int → ℚ) (N : Int)
    (hlab : ∀ a b : Int, 0 ≤ a → a < N → 0 ≤ b → b < N → label a = label b)
    (a n : Nat) (h : ((a + n : Nat) : Int) ≤ N) (s : ℚ) :
    pairLoop label (sortedIdx score N) N n (a : Int) s = some s := by
  have hlen : (sortedIdx score N).length = N.toNat := sortedIdx_length score N
  have hN : N = ((sortedIdx score N).length : Int) := by rw [hlen]; omega
  have h1 := pairLoop_eq label (sortedIdx score N) n a s (by rw [hlen]; omega)
  rw [← hN] at h1
  rw [h1]
  congr 1
  rw [add_right_eq_self]
  refine Finset.sum_eq_zero ?_
  intro t ht
  rw [Finset.mem_range] at ht
  have hA := getD_mem_sortedIdx score N (a + t) (by rw [hlen]; omega)
  have hB := getD_mem_sortedIdx score N ((sortedIdx score N).length - 1 - (a + t))
    (by rw [hlen]; omega)
  rw [hlab _ _ hA.1 hA.2 hB.1 hB.2, sub_self]

theorem cutoffVals_const_label (label score : Int → ℚ) (N : Int) (hN : 1 ≤ N)
    (hlab : ∀ a b : Int, 0 ≤ a → a < N → 0 ≤ b → b < N → label a = label b) :
    ∀ (ks : List Int) (left : Nat), (∀ k ∈ ks, 0 < k) → (left : Int) ≤ N →
      cutoffVals label (sortedIdx score N) N ks 0 (left : Int)
        = some (List.replicate ks.length (Dbl.fin 0)) := by
  intro ks
  induction ks with
  | nil => intro left _ _; simp [cutoffVals]
  | cons k ks ih =>
    intro left hpos hleft
    have hk : 0 < k := hpos k (List.mem_cons_self _ _)
    have hc1 : 1 ≤ min k N := le_min (by omega) hN
    have hcN : min k N ≤ N := min_le_right _ _
    have hcast : (((min k N).toNat : Nat) : Int) = min k N := by omega
    simp only [cutoffVals, clamp_eq_min]
    rw [pairLoop_const_label label score N hlab left _ (by omega) 0]
    have := ih (min k N).toNat (fun k1 h1 => hpos k1 (List.mem_cons_of_mem _ h1))
      (by omega)
    rw [hcast] at this
    have hne : (((min k N * 2 : Int)) : ℚ) ≠ 0 := by
      have : (min k N * 2 : Int) ≠ 0 := by omega
      exact_mod_cast this
    simp only [this, Option.map_some', Dbl.div, hne, if_false, List.replicate_succ, zero_div,
      List.length_cons]

/-- C8: for a group of size `N ≥ 1` in which all labels are equal and every list of
positive cutoffs, in any order, every entry of the output of `CalAvgdiffAtK` is exactly
`0`. -/
theorem C8_equal_labels_zero (label score : Int → ℚ) (N : Int) (hN : 1 ≤ N)
    (hlab : ∀ a b : Int, 0 ≤ a → a < N → 0 ≤ b → b < N → label a = label b)
    (ks : List Int) (hpos : ∀ k ∈ ks, 0 < k) (out : List Dbl)
    (hout : out.length = ks.length) :
    CalAvgdiffAtK ks label score N out = some (List.replicate ks.length (Dbl.fin 0)) := by
  rw [CalAvgdiffAtK_eq ks label score N out hout]
  exact cutoffVals_const_label label score N hN hlab ks 0 hpos (by simp; omega)

/-- C8 at three items with the label `7` and the cutoffs `[5, 1, 3]`. -/
theorem C8_equal_labels_zero_witness :
    (∀ a b : Int, 0 ≤ a → a < 3 → 0 ≤ b → b < 3 → ptr [7, 7, 7] a = ptr [7, 7, 7] b) ∧
      (∀ k ∈ ([5, 1, 3] : List Int), 0 < k) ∧
      CalAvgdiffAtK [5, 1, 3] (ptr [7, 7, 7]) (ptr [1, 3, 2]) 3 [0, 0, 0]
        = some (List.replicate ([5, 1, 3] : List Int).length (Dbl.fin 0)) := by
  have hlab : ∀ a b : Int, 0 ≤ a → a < 3 → 0 ≤ b → b < 3 →
      ptr [7, 7, 7] a = ptr [7, 7, 7] b := by
    intro a b ha ha3 hb hb3
    have h : ∀ c : Int, 0 ≤ c → c < 3 → ptr [7, 7, 7] c = 7 := by
      intro c hc hc3
      have : c = 0 ∨ c = 1 ∨ c = 2 := by omega
      rcases this with rfl | rfl | rfl <;> simp [ptr, Int.toNat]
    rw [h a ha ha3, h b hb hb3]
  exact ⟨hlab, by decide,
    C8_equal_labels_zero (ptr [7, 7, 7]) (ptr [1, 3, 2]) 3 (by decide) hlab [5, 1, 3]
      (by decide) [0, 0, 0] rfl⟩

/-! ### The loops of `Eval` -/

theorem set_eq_self_of_getElem? {α : Type} (l : List α) (i : Nat) (x : α)
    (h : l[i]? = some x) : l.set i x = l := by
  induction l generalizing i with
  | nil => rfl
  | cons y ys ih =>
    cases i with
    | zero => simp at h; simp [h]
    | succ i => simp at h; simp [ih i h]

/-- The accumulation loop, resumed at entry `j` with the entries before `j` already
updated, ends with the whole row updated. -/
theorem addInto_loop (term : Dbl → Dbl) (tmp row : List Dbl) (tid : Nat)
    (buf : List (List Dbl)) (htid : tid < buf.length) (hlen : tmp.length = row.length) :
    ∀ (n j : Nat), j + n = row.length →
      forLoop (addIntoBody term tmp tid)
        n j (buf.set tid ((List.zipWith (fun r t => r + term t) row tmp).take j ++ row.drop j))
      = some (buf.set tid (List.zipWith (fun r t => r + term t) row tmp)) := by
  intro n
  induction n with
  | zero =>
    intro j hj
    have hz : (List.zipWith (fun r t => r + term t) row tmp).length = row.length := by
      simp [hlen]
    have h1 : j = row.length := by omega
    subst h1
    simp only [forLoop, List.drop_length, List.append_nil]
    rw [List.take_of_length_le (by omega)]
  | succ n ih =>
    intro j hj
    have hjr : j < row.length := by omega
    have hjt : j < tmp.length := by omega
    have hz : (List.zipWith (fun r t => r + term t) row tmp).length = row.length := by
      simp [hlen]
    have hjz : j < (List.zipWith (fun r t => r + term t) row tmp).length := by omega
    have htk : ((List.zipWith (fun r t => r + term t) row tmp).take j).length = j := by
      rw [List.length_take]; omega
    have hR : ((List.zipWith (fun r t => r + term t) row tmp).take j ++ row.drop j)[j]?
        = some row[j] := by
      rw [List.getElem?_append_right (by omega), htk, Nat.sub_self,
        List.drop_eq_getElem_cons hjr]
      simp
    have hset : ((List.zipWith (fun r t => r + term t) row tmp).take j ++ row.drop j).set j
          (row[j] + term tmp[j])
        = (List.zipWith (fun r t => r + term t) row tmp).take (j + 1) ++ row.drop (j + 1) := by
      rw [List.set_append_right _ _ (by omega), htk, Nat.sub_self,
        List.drop_eq_getElem_cons hjr, List.set_cons_zero, List.take_succ,
        List.getElem?_eq_getElem hjz, List.getElem_zipWith]
      simp
    simp only [forLoop, addIntoBody]
    rw [List.getElem?_set_self (by simpa using htid), List.getElem?_eq_getElem hjt]
    simp only [hR, List.set_set, hset]
    exact ih (j + 1) (by omega)

/-- Lines 102-104 and 112-114 add `term tmp_map[j]` to every entry `j` of the row of the
thread. -/
theorem addInto_eq (K : Nat) (term : Dbl → Dbl) (tmp row : List Dbl) (tid : Nat)
    (buf : List (List Dbl)) (hrow : buf[tid]? = some row) (hK : row.length = K)
    (ht : tmp.length = K) :
    addInto K term tmp tid buf
      = some (buf.set tid (List.zipWith (fun r t => r + term t) row tmp)) := by
  have htid : tid < buf.length := (List.getElem?_eq_some_iff.1 hrow).1
  have := addInto_loop term tmp row tid buf htid (by omega) K 0 (by omega)
  unfold addInto
  simp only [List.take_zero, List.nil_append, List.drop_zero] at this
  rw [set_eq_self_of_getElem? buf tid row hrow] at this
  exact this

theorem colSum_set (buf : List (List Dbl)) (tid : Nat) (row row1 : List Dbl) (j : Nat)
    (c : Dbl) (hrow : buf[tid]? = some row) (h : row1.getD j 0 = row.getD j 0 + c) :
    colSum (buf.set tid row1) j = colSum buf j + c := by
  unfold colSum
  induction buf generalizing tid with
  | nil => simp at hrow
  | cons x xs ih =>
    cases tid with
    | zero =>
      simp only [List.getElem?_cons_zero, Option.some.injEq] at hrow
      subst hrow
      simp only [List.set_cons_zero, List.map_cons, List.sum_cons, h]
      rw [add_assoc, add_comm c, ← add_assoc]
    | succ t =>
      simp only [List.getElem?_cons_succ] at hrow
      simp only [List.set_cons_succ, List.map_cons, List.sum_cons, ih t hrow, add_assoc]

theorem getD_zipWith_add (term : Dbl → Dbl) (row tmp : List Dbl) (j : Nat)
    (hj : j < row.length) (hlen : tmp.length = row.length) :
    (List.zipWith (fun r t => r + term t) row tmp).getD j 0
      = row.getD j 0 + term (tmp.getD j 0) := by
  have hjt : j < tmp.length := by omega
  rw [List.getD_eq_getElem _ _ (by simp; omega), List.getD_eq_getElem _ _ hj,
    List.getD_eq_getElem _ _ hjt, List.getElem_zipWith]

/-- The loop over the threads of lines 120-122 adds up column `j` of the buffers. -/
theorem threadLoop_eq (buf : List (List Dbl)) (j : Nat)
    (hrows : ∀ row ∈ buf, j < row.length) :
    ∀ (n i : Nat) (r : Dbl), i + n = buf.length →
      forLoop (finalEntryBody buf j) n i r
      = some (r + ((buf.drop i).map (fun row => row.getD j 0)).sum) := by
  intro n
  induction n with
  | zero =>
    intro i r h
    have : i = buf.length := by omega
    subst this
    simp [forLoop]
  | succ n ih =>
    intro i r h
    have hi : i < buf.length := by omega
    have hj : j < buf[i].length := hrows _ (List.getElem_mem _)
    simp only [forLoop, finalEntryBody, List.getElem?_eq_getElem hi,
      List.getElem?_eq_getElem hj]
    rw [ih (i + 1) _ (by omega), List.drop_eq_getElem_cons hi, List.map_cons, List.sum_cons,
      List.getD_eq_getElem _ _ hj, add_assoc]

theorem allSome_map {α β : Type} (f : α → Option β) (g : α → β) (l : List α)
    (h : ∀ x ∈ l, f x = some (g x)) : allSome (l.map f) = some (l.map g) := by
  induction l with
  | nil => rfl
  | cons x xs ih =>
    simp only [List.map_cons, h x (List.mem_cons_self _ _), allSome,
      ih (fun y hy => h y (List.mem_cons_of_mem _ hy)), Option.map_some']

/-- Lines 118-125 on buffers of the right shape: entry `j` of the result is the column
sum divided by the sum of the weights. -/
theorem finalAverage_eq (self : TopavgdiffMetric) (buf : List (List Dbl))
    (hW : buf.length = self.num_threads_)
    (hrows : ∀ row ∈ buf, row.length = self.eval_at_.length) :
    finalAverage self buf
      = some ((List.range self.eval_at_.length).map
          (fun j => Dbl.div (colSum buf j) self.sum_query_weights_)) := by
  unfold finalAverage
  refine allSome_map _ _ _ ?_
  intro j hj
  rw [List.mem_range] at hj
  unfold finalEntry
  rw [threadLoop_eq buf j (fun row hr => by rw [hrows row hr]; exact hj)
    self.num_threads_ 0 0 (by omega)]
  simp [colSum]

/-! ### The parallel loop -/

theorem groupResult_eq (ks : List Int) (label : Int → ℚ) (qb : Nat → Int) (score : Int → ℚ)
    (i : Nat) (out : List Dbl) (hout : out.length = ks.length) :
    CalAvgdiffAtK ks (fun t => label (qb i + t)) (fun t => score (qb i + t))
        (qb (i + 1) - qb i) out
      = groupResult ks label qb score i := by
  unfold groupResult
  rw [CalAvgdiffAtK_eq _ _ _ _ out hout, CalAvgdiffAtK_eq _ _ _ _ _ (by simp)]

theorem groupResult_length (ks : List Int) (label : Int → ℚ) (qb : Nat → Int)
    (score : Int → ℚ) (i : Nat) (r : List Dbl)
    (h : groupResult ks label qb score i = some r) : r.length = ks.length := by
  unfold groupResult at h
  rw [CalAvgdiffAtK_eq _ _ _ _ _ (by simp)] at h
  exact cutoffVals_length _ _ _ _ _ _ _ h

/-- One iteration of the parallel loop for a group that has a result: the column sums of
the buffers grow by the weighted result of the group, whatever thread runs it. -/
theorem evalIter_some (self : TopavgdiffMetric) (qb : Nat → Int) (score : Int → ℚ)
    (i tid : Nat) (st : EvalState) (r : List Dbl)
    (hinv : EvalInv self.num_threads_ self.eval_at_.length st)
    (htid : tid < self.num_threads_)
    (hr : groupResult self.eval_at_ self.label_ qb score i = some r) :
    ∃ st1, evalIter self qb score i tid st = some st1 ∧
      EvalInv self.num_threads_ self.eval_at_.length st1 ∧
      ∀ j, j < self.eval_at_.length →
        colSum st1.result_buffer_ j
          = colSum st.result_buffer_ j + weighted self.query_weights_ i (r.getD j 0) := by
  obtain ⟨hW, hrows, htmp⟩ := hinv
  have hrl : r.length = self.eval_at_.length := groupResult_length _ _ _ _ _ _ hr
  have htl : tid < st.result_buffer_.length := by omega
  have hrow : st.result_buffer_[tid]? = some st.result_buffer_[tid] :=
    List.getElem?_eq_getElem htl
  have hrowl : st.result_buffer_[tid].length = self.eval_at_.length :=
    hrows _ (List.getElem_mem _)
  unfold evalIter
  rw [groupResult_eq _ _ _ _ _ _ (htmp tid), hr]
  simp only []
  rw [addInto_eq _ _ r _ tid _ hrow hrowl hrl]
  refine ⟨_, rfl, ⟨?_, ?_, ?_⟩, ?_⟩
  · simp [hW]
  · intro row hmem
    rcases List.mem_or_eq_of_mem_set hmem with h | h
    · exact hrows row h
    · rw [h, List.length_zipWith, hrowl, hrl, Nat.min_self]
  · intro t
    by_cases h : t = tid
    · subst h; simp [hrl]
    · simp [Function.update_noteq h, htmp t]
  · intro j hj
    refine colSum_set _ tid _ _ j _ hrow ?_
    exact getD_zipWith_add _ _ _ j (by omega) (by omega)

theorem evalIter_none (self : TopavgdiffMetric) (qb : Nat → Int) (score : Int → ℚ)
    (i tid : Nat) (st : EvalState)
    (hinv : EvalInv self.num_threads_ self.eval_at_.length st)
    (hr : groupResult self.eval_at_ self.label_ qb score i = none) :
    evalIter self qb score i tid st = none := by
  unfold evalIter
  rw [groupResult_eq _ _ _ _ _ _ (hinv.2.2 tid), hr]

/-- The parallel loop over groups that all have a result: the column sums grow by the sum
of the weighted results of the groups of the schedule. -/
theorem groupLoop_some (self : TopavgdiffMetric) (qb : Nat → Int) (score : Int → ℚ)
    (tid : Nat → Nat) (r : Nat → List Dbl) :
    ∀ (order : List Nat) (st : EvalState),
      EvalInv self.num_threads_ self.eval_at_.length st →
      (∀ i ∈ order, tid i < self.num_threads_) →
      (∀ i ∈ order, groupResult self.eval_at_ self.label_ qb score i = some (r i)) →
      ∃ st1, groupLoop self qb score tid order st = some st1 ∧
        EvalInv self.num_threads_ self.eval_at_.length st1 ∧
        ∀ j, j < self.eval_at_.length →
          colSum st1.result_buffer_ j
            = colSum st.result_buffer_ j
              + (order.map (fun i => weighted self.query_weights_ i ((r i).getD j 0))).sum := by
  intro order
  induction order with
  | nil => intro st hinv _ _; exact ⟨st, rfl, hinv, by intro j _; simp⟩
  | cons i rest ih =>
    intro st hinv htid hr
    obtain ⟨st1, h1, hinv1, hsum1⟩ := evalIter_some self qb score i (tid i) st (r i) hinv
      (htid i (List.mem_cons_self _ _)) (hr i (List.mem_cons_self _ _))
    obtain ⟨st2, h2, hinv2, hsum2⟩ := ih st1 hinv1
      (fun k hk => htid k (List.mem_cons_of_mem _ hk))
      (fun k hk => hr k (List.mem_cons_of_mem _ hk))
    refine ⟨st2, ?_, hinv2, ?_⟩
    · simp only [groupLoop, h1, h2]
    · intro j hj
      rw [hsum2 j hj, hsum1 j hj, List.map_cons, List.sum_cons, add_assoc]

/-- The parallel loop fails as soon as one group of the schedule has no result. -/
theorem groupLoop_none (self : TopavgdiffMetric) (qb : Nat → Int) (score : Int → ℚ)
    (tid : Nat → Nat) :
    ∀ (order : List Nat) (st : EvalState),
      EvalInv self.num_threads_ self.eval_at_.length st →
      (∀ i ∈ order, tid i < self.num_threads_) →
      (∃ i ∈ order, groupResult self.eval_at_ self.label_ qb score i = none) →
      groupLoop self qb score tid order st = none := by
  intro order
  induction order with
  | nil => intro st _ _ h; obtain ⟨i, hi, _⟩ := h; simp at hi
  | cons i rest ih =>
    intro st hinv htid h
    rcases hri : groupResult self.eval_at_ self.label_ qb score i with _ | ri
    · simp only [groupLoop, evalIter_none self qb score i (tid i) st hinv hri]
    · obtain ⟨st1, h1, hinv1, _⟩ := evalIter_some self qb score i (tid i) st ri hinv
        (htid i (List.mem_cons_self _ _)) hri
      simp only [groupLoop, h1]
      refine ih st1 hinv1 (fun k hk => htid k (List.mem_cons_of_mem _ hk)) ?_
      obtain ⟨k, hk, hkr⟩ := h
      rcases List.mem_cons.1 hk with rfl | hk1
      · rw [hri] at hkr; cases hkr
      · exact ⟨k, hk1, hkr⟩

theorem colSum_zeros (W K j : Nat) :
    colSum (List.replicate W (List.replicate K (0 : Dbl))) j = 0 := by
  unfold colSum
  induction W with
  | zero => simp
  | succ W ih =>
    rw [List.replicate_succ, List.map_cons, List.sum_cons, ih, add_zero]
    by_cases h : j < K
    · rw [List.getD_eq_getElem _ _ (by simpa using h)]; simp
    · rw [List.getD_eq_default _ _ (by simpa using h)]

/-- The result of `Eval` under every schedule of the parallel loop is the closed form,
which depends neither on the number of threads nor on the schedule. -/
theorem Eval_eq_closed (self : TopavgdiffMetric) (qb : Nat → Int)
    (hqb : self.query_boundaries_ = some qb) (score : Int → ℚ) (order : List Nat)
    (tid : Nat → Nat) (hs : validSchedule self.num_queries_ self.num_threads_ order tid) :
    self.Eval score order tid
      = evalClosed self.eval_at_ self.label_ qb self.num_queries_ self.query_weights_
          self.sum_query_weights_ score := by
  obtain ⟨hperm, htid⟩ := hs
  have hmem : ∀ i, i ∈ order ↔ i < self.num_queries_ := by
    intro i; rw [hperm.mem_iff, List.mem_range]
  have hinv0 : EvalInv self.num_threads_ self.eval_at_.length
      { result_buffer_ := List.replicate self.num_threads_
          (List.replicate self.eval_at_.length (0 : Dbl)),
        tmp_map := fun _ => List.replicate self.eval_at_.length (0 : Dbl) } := by
    refine ⟨by simp, ?_, by simp⟩
    intro row hrow
    rw [(List.mem_replicate.1 hrow).2]; simp
  unfold TopavgdiffMetric.Eval evalClosed
  simp only [hqb]
  by_cases hall : ((List.range self.num_queries_).all
      (fun i => (groupResult self.eval_at_ self.label_ qb score i).isSome)) = true
  · rw [if_pos hall]
    rw [List.all_eq_true] at hall
    have hr : ∀ i ∈ order, groupResult self.eval_at_ self.label_ qb score i
        = some ((groupResult self.eval_at_ self.label_ qb score i).getD []) := by
      intro i hi
      have := hall i (List.mem_range.2 ((hmem i).1 hi))
      obtain ⟨v, hv⟩ := Option.isSome_iff_exists.1 this
      rw [hv]; rfl
    obtain ⟨st1, h1, hinv1, hsum1⟩ := groupLoop_some self qb score tid
      (fun i => (groupResult self.eval_at_ self.label_ qb score i).getD []) order _ hinv0
      (fun i hi => htid i ((hmem i).1 hi)) hr
    rw [h1]
    simp only []
    rw [finalAverage_eq self _ hinv1.1 hinv1.2.1]
    congr 1
    refine List.map_congr_left ?_
    intro j hj
    rw [List.mem_range] at hj
    rw [hsum1 j hj, colSum_zeros, zero_add]
    congr 1
    exact (hperm.map _).sum_eq
  · rw [if_neg hall]
    have hex : ∃ i ∈ order, groupResult self.eval_at_ self.label_ qb score i = none := by
      rw [List.all_eq_true] at hall
      push_neg at hall
      obtain ⟨i, hi, hn⟩ := hall
      refine ⟨i, (hmem i).2 (List.mem_range.1 hi), ?_⟩
      simpa using hn
    rw [groupLoop_none self qb score tid order _ hinv0
      (fun i hi => htid i ((hmem i).1 hi)) hex]

/-! ### `Init` -/

theorem foldl_add_eq_sum (w : Nat → ℚ) (n : Nat) :
    (List.range n).foldl (fun s i => s + w i) 0 = ∑ i in Finset.range n, w i := by
  induction n with
  | zero => simp
  | succ n ih => rw [List.range_succ, List.foldl_append, ih, Finset.sum_range_succ]; rfl

theorem sum_groupWeight_none (n : Nat) :
    ∑ i in Finset.range n, groupWeight none i = (n : ℚ) := by
  simp [groupWeight]

/-- The object that a successful `Init` returns. -/
theorem Init_ok (m0 : TopavgdiffMetric) (md : Metadata) (num_data : Int) (qb : Nat → Int)
    (hqb : md.query_boundaries = some qb) :
    m0.Init md num_data = Except.ok
      { num_data_ := num_data
        label_ := md.label
        query_boundaries_ := some qb
        num_queries_ := md.num_queries
        query_weights_ := md.query_weights
        sum_query_weights_ := ∑ i in Finset.range md.num_queries, groupWeight md.query_weights i
        eval_at_ := m0.eval_at_
        num_threads_ := m0.num_threads_
        name_ := m0.name_ ++ m0.eval_at_.map (fun k => "topavgdiff@" ++ toString k) } := by
  unfold TopavgdiffMetric.Init
  simp only [hqb]
  rcases hw : md.query_weights with _ | w
  · simp only [sum_groupWeight_none]
  · simp only [foldl_add_eq_sum, groupWeight]

/-! ## C10: `Init` -/

/-- C10: `Init` fails if and only if the metadata has no group boundaries; with boundaries
it succeeds and `sum_query_weights_` is the sum of the group weights, which is the number
of groups when the weights are absent. -/
theorem C10_Init_boundaries (m0 : TopavgdiffMetric) (md : Metadata) (num_data : Int) :
    ((∃ e, m0.Init md num_data = Except.error e) ↔ md.query_boundaries = none) ∧
    (∀ qb, md.query_boundaries = some qb →
      ∃ m, m0.Init md num_data = Except.ok m ∧
        m.sum_query_weights_
          = ∑ i in Finset.range md.num_queries, groupWeight md.query_weights i ∧
        (md.query_weights = none → m.sum_query_weights_ = (md.num_queries : ℚ))) := by
  constructor
  · constructor
    · rintro ⟨e, he⟩
      rcases hqb : md.query_boundaries with _ | qb
      · rfl
      · rw [Init_ok m0 md num_data qb hqb] at he
        cases he
    · intro h
      refine ⟨"For MAP metric, there should be query information", ?_⟩
      unfold TopavgdiffMetric.Init
      simp only [h]
  · intro qb hqb
    refine ⟨_, Init_ok m0 md num_data qb hqb, rfl, ?_⟩
    intro hw
    simp only [hw, sum_groupWeight_none]

/-! ### Cutoffs that are not negative: no access outside a vector -/

theorem pairLoop_isSome (label score : Int → ℚ) (N : Int) (a n : Nat)
    (h : ((a + n : Nat) : Int) ≤ N) (s : ℚ) :
    (pairLoop label (sortedIdx score N) N n (a : Int) s).isSome = true := by
  have hlen : (sortedIdx score N).length = N.toNat := sortedIdx_length score N
  have hN : N = ((sortedIdx score N).length : Int) := by rw [hlen]; omega
  have h1 := pairLoop_eq label (sortedIdx score N) n a s (by rw [hlen]; omega)
  rw [← hN] at h1
  rw [h1]
  rfl

/-- For cutoffs that are not negative the cutoff loop on a group of size `N ≥ 0` reads the
sorted index vector only inside its bounds, so it returns its values. -/
theorem cutoffVals_isSome (label score : Int → ℚ) (N : Int) (hN : 0 ≤ N) :
    ∀ (ks : List Int) (left : Nat) (s : ℚ), (∀ k ∈ ks, 0 ≤ k) → (left : Int) ≤ N →
      (cutoffVals label (sortedIdx score N) N ks s (left : Int)).isSome = true := by
  intro ks
  induction ks with
  | nil => intro left s _ _; rfl
  | cons k ks ih =>
    intro left s hks hleft
    have hk : 0 ≤ k := hks k (List.mem_cons_self _ _)
    have hc0 : 0 ≤ min k N := le_min hk hN
    have hcN : min k N ≤ N := min_le_right _ _
    have hcast : (((min k N).toNat : Nat) : Int) = min k N := by omega
    simp only [cutoffVals, clamp_eq_min]
    have hp := pairLoop_isSome label score N left (min k N - (left : Int)).toNat
      (by omega) s
    obtain ⟨s1, hs1⟩ := Option.isSome_iff_exists.1 hp
    rw [hs1]
    have := ih (min k N).toNat s1 (fun k1 h1 => hks k1 (List.mem_cons_of_mem _ h1))
      (by omega)
    rw [hcast] at this
    obtain ⟨vs, hvs⟩ := Option.isSome_iff_exists.1 this
    simp only [hvs, Option.map_some', Option.isSome_some]

/-- Every group with `qb i ≤ qb (i + 1)` has a `CalAvgdiffAtK` result when no cutoff is
negative. -/
theorem groupResult_isSome (ks : List Int) (hks : ∀ k ∈ ks, 0 ≤ k) (label : Int → ℚ)
    (qb : Nat → Int) (score : Int → ℚ) (i : Nat) (hi : qb i ≤ qb (i + 1)) :
    (groupResult ks label qb score i).isSome = true := by
  unfold groupResult
  rw [CalAvgdiffAtK_eq _ _ _ _ _ (by simp)]
  exact cutoffVals_isSome _ _ _ (by omega) ks 0 0 hks (by simp; omega)

/-! ## C3: weighted aggregation -/

theorem Dbl.scale_one (x : Dbl) : Dbl.scale x 1 = x := by
  cases x <;> simp [Dbl.scale]

theorem weighted_eq_scale (qw : Option (Nat → ℚ)) (i : Nat) (t : Dbl) :
    weighted qw i t = Dbl.scale t (groupWeight qw i) := by
  cases qw with
  | none => simp [weighted, groupWeight, Dbl.scale_one]
  | some w => rfl

theorem list_sum_range_eq (f : Nat → Dbl) (n : Nat) :
    ((List.range n).map f).sum = ∑ i in Finset.range n, f i := by
  induction n with
  | zero => simp
  | succ n ih =>
    rw [List.range_succ, List.map_append, List.sum_append, ih, Finset.sum_range_succ]
    simp

/-- The closed form of `Eval` when every group `i` has the result `r i`. -/
theorem evalClosed_of_results (ks : List Int) (label : Int → ℚ) (qb : Nat → Int) (n : Nat)
    (qw : Option (Nat → ℚ)) (sumw : ℚ) (score : Int → ℚ) (r : Nat → List Dbl)
    (hr : ∀ i, i < n → groupResult ks label qb score i = some (r i)) :
    evalClosed ks label qb n qw sumw score
      = some ((List.range ks.length).map (fun j =>
          Dbl.div (∑ i in Finset.range n, Dbl.scale ((r i).getD j 0) (groupWeight qw i))
            sumw)) := by
  unfold evalClosed
  have hall : ((List.range n).all (fun i => (groupResult ks label qb score i).isSome))
      = true := by
    rw [List.all_eq_true]
    intro i hi
    rw [hr i (List.mem_range.1 hi)]
    rfl
  rw [if_pos hall]
  congr 1
  refine List.map_congr_left ?_
  intro j _
  congr 1
  rw [← list_sum_range_eq]
  congr 1
  refine List.map_congr_left ?_
  intro i hi
  rw [hr i (List.mem_range.1 hi), weighted_eq_scale]
  rfl

/-- C3: after `Init`, under every schedule of the parallel loop, `Eval` returns for each
cutoff position `j` the sum over the groups `i` of `w[i] * r_i[j]` divided by the sum of
the `w[i]`, where `r_i` is the `CalAvgdiffAtK` result of group `i` and `w[i]` is `1` when
the weights are absent, in which case the divisor is the number of groups.  Every group has
such a result when the boundaries do not decrease and no cutoff is negative. -/
theorem C3_Eval_weighted_average (m0 : TopavgdiffMetric) (md : Metadata) (num_data : Int)
    (m : TopavgdiffMetric) (hInit : m0.Init md num_data = Except.ok m) (qb : Nat → Int)
    (hqb : md.query_boundaries = some qb) (score : Int → ℚ) (order : List Nat)
    (tid : Nat → Nat) (hs : validSchedule md.num_queries m0.num_threads_ order tid) :
    (∀ r : Nat → List Dbl,
      (∀ i, i < md.num_queries → groupResult m0.eval_at_ md.label qb score i = some (r i)) →
      m.Eval score order tid
        = some ((List.range m0.eval_at_.length).map (fun j =>
            Dbl.div
              (∑ i in Finset.range md.num_queries,
                Dbl.scale ((r i).getD j 0) (groupWeight md.query_weights i))
              (∑ i in Finset.range md.num_queries, groupWeight md.query_weights i))))
      ∧ ((∀ k ∈ m0.eval_at_, 0 ≤ k) → (∀ i, i < md.num_queries → qb i ≤ qb (i + 1)) →
          ∃ r : Nat → List Dbl, ∀ i, i < md.num_queries →
            groupResult m0.eval_at_ md.label qb score i = some (r i))
      ∧ (md.query_weights = none →
          ∑ i in Finset.range md.num_queries, groupWeight md.query_weights i
            = (md.num_queries : ℚ)) := by
  rw [Init_ok m0 md num_data qb hqb] at hInit
  injection hInit with hm
  subst hm
  refine ⟨?_, ?_, ?_⟩
  · intro r hr
    rw [Eval_eq_closed _ qb rfl score order tid hs]
    exact evalClosed_of_results _ _ _ _ _ _ _ r hr
  · intro hks hqbmono
    refine ⟨fun i => (groupResult m0.eval_at_ md.label qb score i).getD [], ?_⟩
    intro i hi
    obtain ⟨v, hv⟩ := Option.isSome_iff_exists.1
      (groupResult_isSome m0.eval_at_ hks md.label qb score i (hqbmono i hi))
    simp only [hv, Option.getD_some]
  · intro hw
    rw [hw, sum_groupWeight_none]

/-- C3 at two groups with the weights `1` and `3` whose results for the cutoff `1` are
`2` and `-2`: the aggregate is `-1`. -/
theorem C3_Eval_weighted_average_witness :
    ∃ m, (TopavgdiffMetric.new [1] 2).Init (exampleMetadata (some [1, 3])) 4 = Except.ok m ∧
      validSchedule 2 2 [1, 0] (fun i => 1 - i) ∧
      (∀ i, i < 2 → groupResult [1] (ptr [5, 1, 1, 5]) (ptrInt [0, 2, 4]) (ptr [2, 1, 2, 1]) i
        = some (exampleResults i)) ∧
      m.Eval (ptr [2, 1, 2, 1]) [1, 0] (fun i => 1 - i) = some [Dbl.fin (-1)] := by
  have hs : validSchedule 2 2 [1, 0] (fun i => 1 - i) :=
    ⟨by decide, fun i hi => by show 1 - i < 2; omega⟩
  have hr : ∀ i, i < 2 →
      groupResult [1] (ptr [5, 1, 1, 5]) (ptrInt [0, 2, 4]) (ptr [2, 1, 2, 1]) i
        = some (exampleResults i) := by
    intro i hi
    have : i = 0 ∨ i = 1 := by omega
    rcases this with rfl | rfl
    · simp [groupResult, CalAvgdiffAtK, cutoffLoop, pairLoop, sortedIdx, stable_sort,
        stableInsert, vget, vset, ptr, ptrInt, Dbl.div, List.range, List.range.loop,
        Int.toNat, exampleResults]
      norm_num
    · simp [groupResult, CalAvgdiffAtK, cutoffLoop, pairLoop, sortedIdx, stable_sort,
        stableInsert, vget, vset, ptr, ptrInt, Dbl.div, List.range, List.range.loop,
        Int.toNat, exampleResults]
      norm_num
  refine ⟨_, rfl, hs, hr, ?_⟩
  rw [(C3_Eval_weighted_average (TopavgdiffMetric.new [1] 2) (exampleMetadata (some [1, 3])) 4
    _ rfl (ptrInt [0, 2, 4]) rfl (ptr [2, 1, 2, 1]) [1, 0] (fun i => 1 - i) hs).1
    exampleResults hr]
  simp [TopavgdiffMetric.new, exampleMetadata, exampleResults, groupWeight, ptrW,
    Finset.sum_range_succ, Dbl.scale, Dbl.div, List.range, List.range.loop]
  norm_num

/-! ## C7: weight neutrality -/

theorem Dbl.scale_add (a b : Dbl) (c : ℚ) :
    Dbl.scale (a + b) c = Dbl.scale a c + Dbl.scale b c := by
  cases a <;> cases b <;> simp [Dbl.scale, add_mul]

theorem Dbl.scale_list_sum (f : Nat → Dbl) (c : ℚ) (l : List Nat) :
    (l.map (fun i => Dbl.scale (f i) c)).sum = Dbl.scale (l.map f).sum c := by
  induction l with
  | nil => simp [Dbl.scale, Dbl.zero_eq]
  | cons x xs ih => rw [List.map_cons, List.sum_cons, ih, List.map_cons, List.sum_cons,
      Dbl.scale_add]

theorem Dbl.div_scale (x : Dbl) (c : ℚ) (hc : c ≠ 0) (n : ℚ) :
    Dbl.div (Dbl.scale x c) (n * c) = Dbl.div x n := by
  cases x with
  | nan => rfl
  | fin a =>
    by_cases hn : n = 0
    · simp [Dbl.scale, Dbl.div, hn]
    · have : n * c ≠ 0 := mul_ne_zero hn hc
      simp only [Dbl.scale, Dbl.div, this, hn, if_false]
      congr 1
      field_simp
      ring

/-- The closed form of `Eval` with the same non-zero weight `C` for every group is the
closed form without weights. -/
theorem evalClosed_const_weight (ks : List Int) (label : Int → ℚ) (qb : Nat → Int) (n : Nat)
    (w : Nat → ℚ) (C : ℚ) (hC : C ≠ 0) (hw : ∀ i, i < n → w i = C) (score : Int → ℚ) :
    evalClosed ks label qb n (some w) (∑ i in Finset.range n, groupWeight (some w) i) score
      = evalClosed ks label qb n none (∑ i in Finset.range n, groupWeight none i) score := by
  unfold evalClosed
  split
  · congr 1
    refine List.map_congr_left ?_
    intro j _
    have h1 : (List.range n).map (fun i =>
          weighted (some w) i (((groupResult ks label qb score i).getD []).getD j 0))
        = (List.range n).map (fun i =>
          Dbl.scale (((groupResult ks label qb score i).getD []).getD j 0) C) := by
      refine List.map_congr_left ?_
      intro i hi
      simp only [weighted, hw i (List.mem_range.1 hi)]
    have h2 : ∑ i in Finset.range n, groupWeight (some w) i = (n : ℚ) * C := by
      simp only [groupWeight]
      rw [Finset.sum_congr rfl (fun i hi => hw i (Finset.mem_range.1 hi))]
      simp
    rw [h1, h2, Dbl.scale_list_sum, Dbl.div_scale _ _ hC, sum_groupWeight_none]
    rfl
  · rfl

/-- C7 fails as stated for the constant `C = 0`: on one group with the labels `[5,1]`,
scores `[2,1]` and the cutoff `1`, `Eval` gives the invalid value of `0 / 0` with the
weight `0` and the value `2` without weights. -/
theorem C7_weight_neutrality_counterexample :
    (∃ mw, (TopavgdiffMetric.new [1] 1).Init (exampleSingleGroup (some 0)) 2 = Except.ok mw ∧
        mw.Eval (ptr [2, 1]) [0] (fun _ => 0) = some [Dbl.nan]) ∧
      (∃ m, (TopavgdiffMetric.new [1] 1).Init (exampleSingleGroup none) 2 = Except.ok m ∧
        m.Eval (ptr [2, 1]) [0] (fun _ => 0) = some [Dbl.fin 2]) ∧
      Dbl.nan ≠ Dbl.fin 2 := by
  refine ⟨⟨_, rfl, ?_⟩, ⟨_, rfl, ?_⟩, ?_⟩
  · simp [TopavgdiffMetric.Eval, groupLoop, evalIter, addInto, addIntoBody, finalAverage,
      finalEntry, finalEntryBody, allSome, forLoop, weighted, CalAvgdiffAtK, cutoffLoop,
      pairLoop, sortedIdx, stable_sort, stableInsert, vget, vset, ptr, ptrInt, ptrW, Dbl.div,
      Dbl.scale, List.range, List.range.loop, Int.toNat, exampleSingleGroup,
      TopavgdiffMetric.new, Function.update, Dbl.zero_eq]
  · simp [TopavgdiffMetric.Eval, groupLoop, evalIter, addInto, addIntoBody, finalAverage,
      finalEntry, finalEntryBody, allSome, forLoop, weighted, CalAvgdiffAtK, cutoffLoop,
      pairLoop, sortedIdx, stable_sort, stableInsert, vget, vset, ptr, ptrInt, ptrW, Dbl.div,
      Dbl.scale, List.range, List.range.loop, Int.toNat, exampleSingleGroup,
      TopavgdiffMetric.new, Function.update, Dbl.zero_eq]
    norm_num
  · intro h
    cases h

/-- C7, amended: for every non-zero constant `C` (a positive one, among the non-negative
group weights), `Eval` with a weight array whose entries all equal `C` returns the same
result vector as `Eval` with weights absent, under every pair of schedules. -/
theorem C7_weight_neutrality_nonzero (m0 : TopavgdiffMetric) (label : Int → ℚ)
    (qb : Nat → Int) (n : Nat) (num_data : Int) (w : Nat → ℚ) (C : ℚ) (hC : C ≠ 0)
    (hw : ∀ i, i < n → w i = C) (mw m : TopavgdiffMetric)
    (hInitw : m0.Init (Metadata.mk label (some qb) n (some w)) num_data = Except.ok mw)
    (hInit : m0.Init (Metadata.mk label (some qb) n none) num_data = Except.ok m)
    (score : Int → ℚ) (order order1 : List Nat) (tid tid1 : Nat → Nat)
    (hs : validSchedule n m0.num_threads_ order tid)
    (hs1 : validSchedule n m0.num_threads_ order1 tid1) :
    mw.Eval score order tid = m.Eval score order1 tid1 := by
  rw [Init_ok m0 _ num_data qb rfl] at hInitw hInit
  injection hInitw with hmw
  injection hInit with hm
  subst hmw
  subst hm
  rw [Eval_eq_closed _ qb rfl score order tid hs, Eval_eq_closed _ qb rfl score order1 tid1 hs1]
  exact evalClosed_const_weight _ _ _ _ w C hC hw score

/-- C7, amended, at two groups with the weight `3` each. -/
theorem C7_weight_neutrality_nonzero_witness :
    (3 : ℚ) ≠ 0 ∧
    ∃ mw m,
      (TopavgdiffMetric.new [1] 2).Init
          (Metadata.mk (ptr [5, 1, 1, 5]) (some (ptrInt [0, 2, 4])) 2 (some (fun _ => 3))) 4
        = Except.ok mw ∧
      (TopavgdiffMetric.new [1] 2).Init
          (Metadata.mk (ptr [5, 1, 1, 5]) (some (ptrInt [0, 2, 4])) 2 none) 4
        = Except.ok m ∧
      mw.Eval (ptr [2, 1, 2, 1]) [1, 0] (fun i => 1 - i)
        = m.Eval (ptr [2, 1, 2, 1]) [0, 1] (fun _ => 0) :=
  ⟨by norm_num, _, _, rfl, rfl,
    C7_weight_neutrality_nonzero (TopavgdiffMetric.new [1] 2) (ptr [5, 1, 1, 5])
      (ptrInt [0, 2, 4]) 2 4 (fun _ => 3) 3 (by norm_num) (fun _ _ => rfl) _ _ rfl rfl
      (ptr [2, 1, 2, 1]) [1, 0] [0, 1] (fun i => 1 - i) (fun _ => 0)
      ⟨by decide, fun i hi => by show 1 - i < 2; omega⟩
      ⟨by decide, fun _ _ => Nat.succ_pos 1⟩⟩

/-! ## C9: worker independence -/

/-- C9: for every number of threads `W` and every schedule of the groups on them (every
assignment of the groups to thread ids below `W`, run in any order), `Eval` returns what
the sequential run on one thread returns. -/
theorem C9_worker_independence (self : TopavgdiffMetric) (score : Int → ℚ) (W : Nat)
    (order : List Nat) (tid : Nat → Nat)
    (hs : validSchedule self.num_queries_ W order tid) :
    ({ self with num_threads_ := W } : TopavgdiffMetric).Eval score order tid
      = ({ self with num_threads_ := 1 } : TopavgdiffMetric).Eval score
          (List.range self.num_queries_) (fun _ => 0) := by
  have hcases : self.query_boundaries_ = none ∨ ∃ qb, self.query_boundaries_ = some qb := by
    cases self.query_boundaries_ with
    | none => exact Or.inl rfl
    | some qb => exact Or.inr ⟨qb, rfl⟩
  rcases hcases with hqb | ⟨qb, hqb⟩
  · unfold TopavgdiffMetric.Eval
    simp only [hqb]
  · have h1 := Eval_eq_closed ({ self with num_threads_ := W } : TopavgdiffMetric) qb hqb
      score order tid hs
    have h2 := Eval_eq_closed ({ self with num_threads_ := 1 } : TopavgdiffMetric) qb hqb
      score (List.range self.num_queries_) (fun _ => 0)
      ⟨List.Perm.refl _, fun _ _ => Nat.lt_succ_self 0⟩
    rw [h1, h2]

/-- C9 at two groups on two threads, the second group run first. -/
theorem C9_worker_independence_witness :
    ∃ m, (TopavgdiffMetric.new [1] 2).Init (exampleMetadata (some [1, 3])) 4 = Except.ok m ∧
      validSchedule m.num_queries_ 2 [1, 0] (fun i => 1 - i) ∧
      ({ m with num_threads_ := 2 } : TopavgdiffMetric).Eval (ptr [2, 1, 2, 1]) [1, 0]
          (fun i => 1 - i)
        = ({ m with num_threads_ := 1 } : TopavgdiffMetric).Eval (ptr [2, 1, 2, 1])
            (List.range m.num_queries_) (fun _ => 0) := by
  have hs : validSchedule 2 2 [1, 0] (fun i => 1 - i) :=
    ⟨by decide, fun i hi => by show 1 - i < 2; omega⟩
  exact ⟨_, rfl, hs, C9_worker_independence _ (ptr [2, 1, 2, 1]) 2 [1, 0] (fun i => 1 - i) hs⟩

/-! ## C11: display names -/

/-- C11: after `Init` on a freshly constructed metric with the cutoffs `ks`, `GetName`
returns a list of the length of `ks` whose entry `i` is `"topavgdiff@"` followed by the
decimal rendering of `ks[i]`, in the order of `ks`.  (`Eval` is a `const` member function:
it takes the object and returns only the result vector, so the list stays as it is.) -/
theorem C11_GetName_after_Init (ks : List Int) (num_threads : Nat) (md : Metadata)
    (num_data : Int) (m : TopavgdiffMetric)
    (hInit : (TopavgdiffMetric.new ks num_threads).Init md num_data = Except.ok m) :
    m.GetName.length = ks.length ∧
      m.GetName = ks.map (fun k => "topavgdiff@" ++ toString k) ∧
      ∀ (i : Nat) (hi : i < ks.length),
        m.GetName[i]? = some ("topavgdiff@" ++ toString ks[i]) := by
  have hqb : ∃ qb, md.query_boundaries = some qb := by
    rcases h : md.query_boundaries with _ | qb
    · unfold TopavgdiffMetric.Init at hInit
      simp only [h] at hInit
      cases hInit
    · exact ⟨qb, rfl⟩
  obtain ⟨qb, hqb⟩ := hqb
  rw [Init_ok _ md num_data qb hqb] at hInit
  injection hInit with hm
  subst hm
  have hname : ([] : List String) ++ ks.map (fun k => "topavgdiff@" ++ toString k)
      = ks.map (fun k => "topavgdiff@" ++ toString k) := List.nil_append _
  refine ⟨?_, ?_, ?_⟩
  · show (([] : List String) ++ ks.map (fun k => "topavgdiff@" ++ toString k)).length = _
    rw [hname, List.length_map]
  · exact hname
  · intro i hi
    show (([] : List String) ++ ks.map (fun k => "topavgdiff@" ++ toString k))[i]? = _
    rw [hname, List.getElem?_map, List.getElem?_eq_getElem hi]
    rfl

/-- C11 at the cutoffs `[5, 1, 3]`: the names are `topavgdiff@5`, `topavgdiff@1`,
`topavgdiff@3`. -/
theorem C11_GetName_after_Init_witness :
    ∃ m, (TopavgdiffMetric.new [5, 1, 3] 2).Init (exampleMetadata none) 4 = Except.ok m ∧
      m.GetName.length = ([5, 1, 3] : List Int).length ∧
      m.GetName = ["topavgdiff@5", "topavgdiff@1", "topavgdiff@3"] := by
  refine ⟨_, rfl, (C11_GetName_after_Init [5, 1, 3] 2 (exampleMetadata none) 4 _ rfl).1, ?_⟩
  decide

/-! ## C12: the sorted index vector -/

theorem rankedBefore_score_ge (score : Int → ℚ) (a b : Int) (h : rankedBefore score a b) :
    score a ≥ score b := by
  rcases h with h | h
  · exact le_of_lt h
  · exact le_of_eq h.1.symm

theorem sortedIdx_nodup (score : Int → ℚ) (N : Int) : (sortedIdx score N).Nodup := by
  rw [(sortedIdx_perm score N).nodup_iff]
  exact (List.nodup_range _).map (fun a b h => Int.ofNat.inj h)

/-- Scores along the ranking do not increase. -/
theorem rank_score_antitone (score : Int → ℚ) (N : Int) (p q : Nat) (hpq : p < q)
    (hq : q < N.toNat) :
    score (rank score N p) ≥ score (rank score N q) := by
  have hlen := sortedIdx_length score N
  have hpw := sortedIdx_pairwise score N
  rw [List.pairwise_iff_getElem] at hpw
  unfold rank
  rw [List.getD_eq_getElem _ _ (by omega : p < (sortedIdx score N).length),
    List.getD_eq_getElem _ _ (by omega : q < (sortedIdx score N).length)]
  exact rankedBefore_score_ge score _ _ (hpw p q (by omega) (by omega) hpq)

/-- C12: for every group size `N`, the index vector that `CalAvgdiffAtK` builds before the
cutoff loop is a permutation of `0 .. N - 1`, with every index exactly once, and the scores
do not increase along it: `score[r(p)] ≥ score[r(q)]` for all positions `p < q`. -/
theorem C12_sortedIdx_perm_descending (score : Int → ℚ) (N : Int) :
    (sortedIdx score N).Perm ((List.range N.toNat).map Int.ofNat) ∧
      (sortedIdx score N).length = N.toNat ∧
      (∀ a : Int, 0 ≤ a → a < N → (sortedIdx score N).count a = 1) ∧
      (∀ p q : Nat, p < q → q < N.toNat →
        score (rank score N p) ≥ score (rank score N q)) := by
  refine ⟨sortedIdx_perm score N, sortedIdx_length score N, ?_, ?_⟩
  · intro a ha haN
    exact List.count_eq_one_of_mem (sortedIdx_nodup score N)
      ((mem_sortedIdx score N a).2 ⟨ha, haN⟩)
  · intro p q hpq hq
    exact rank_score_antitone score N p q hpq hq

/-! ## C13: cancellation of the pair sum -/

/-- Sums of `f j - f (n - 1 - j)` over the first `K` and over the first `n - K` positions
agree. -/
theorem sum_pair_reflect (f : Nat → ℚ) (n K : Nat) (hK : K ≤ n) :
    ∑ j in Finset.range K, (f j - f (n - 1 - j))
      = ∑ j in Finset.range (n - K), (f j - f (n - 1 - j)) := by
  have hfull : ∑ j in Finset.range n, (f j - f (n - 1 - j)) = 0 := by
    rw [Finset.sum_sub_distrib, Finset.sum_range_reflect, sub_self]
  have hsplit : ∑ j in Finset.range n, (f j - f (n - 1 - j))
      = ∑ j in Finset.range K, (f j - f (n - 1 - j))
        + ∑ t in Finset.range (n - K), (f (K + t) - f (n - 1 - (K + t))) := by
    rw [← Finset.sum_range_add, Nat.add_sub_cancel' hK]
  have hrefl : ∑ t in Finset.range (n - K), (f (K + t) - f (n - 1 - (K + t)))
      = ∑ t in Finset.range (n - K), (f (n - 1 - t) - f t) := by
    rw [← Finset.sum_range_reflect]
    refine Finset.sum_congr rfl ?_
    intro t ht
    rw [Finset.mem_range] at ht
    have h1 : K + (n - K - 1 - t) = n - 1 - t := by omega
    have h2 : n - 1 - (n - 1 - t) = t := by omega
    rw [h1, h2]
  have hneg : ∑ t in Finset.range (n - K), (f (n - 1 - t) - f t)
      = - ∑ t in Finset.range (n - K), (f t - f (n - 1 - t)) := by
    rw [← Finset.sum_neg_distrib]
    refine Finset.sum_congr rfl ?_
    intro t _
    ring
  rw [hsplit, hrefl, hneg] at hfull
  linarith

theorem pairSum_reflect (label score : Int → ℚ) (N : Int) (K : Nat) (hK : (K : Int) ≤ N) :
    pairSum label score N K = pairSum label score N (N.toNat - K) := by
  unfold pairSum
  exact sum_pair_reflect (fun j => label (rank score N j)) N.toNat K (by omega)

theorem pairSum_full (label score : Int → ℚ) (N : Int) :
    pairSum label score N N.toNat = 0 := by
  by_cases hN : 0 ≤ N
  · rw [pairSum_reflect label score N N.toNat (by omega), Nat.sub_self]
    simp [pairSum]
  · have : N.toNat = 0 := by omega
    rw [this]
    simp [pairSum]

/-- C13: for a group of size `N ≥ 1` and a single cutoff `K ≥ N` the result of
`CalAvgdiffAtK` is exactly `0`, whatever the labels and scores; and the cumulative pair
sum satisfies `S(K) = S(N - K)` for every `0 ≤ K ≤ N`. -/
theorem C13_full_cutoff_zero (label score : Int → ℚ) (N : Int) (hN : 1 ≤ N) :
    (∀ (K : Int) (out : List Dbl), N ≤ K → out.length = 1 →
      CalAvgdiffAtK [K] label score N out = some [Dbl.fin 0]) ∧
    (∀ K : Nat, (K : Int) ≤ N →
      pairSum label score N K = pairSum label score N (N.toNat - K)) := by
  constructor
  · intro K out hK hout
    rw [CalAvgdiffAtK_ascending label score N hN [K]
      (by intro k hk; rw [List.mem_singleton] at hk; omega) (by simp) out (by simpa using hout)]
    have hmin : min K N = N := min_eq_right hK
    simp only [List.map_cons, List.map_nil, hmin, pairSum_full, zero_div]
  · intro K hK
    exact pairSum_reflect label score N K hK

/-- C13 at labels `[1,2,3,4]`, scores `[4,3,2,1]`: the cutoff `7` gives `0`, and
`S(1) = S(3)`. -/
theorem C13_full_cutoff_zero_witness :
    (1 : Int) ≤ 4 ∧
      CalAvgdiffAtK [7] (ptr [1, 2, 3, 4]) (ptr [4, 3, 2, 1]) 4 [0] = some [Dbl.fin 0] ∧
      pairSum (ptr [1, 2, 3, 4]) (ptr [4, 3, 2, 1]) 4 1
        = pairSum (ptr [1, 2, 3, 4]) (ptr [4, 3, 2, 1]) 4 ((4 : Int).toNat - 1) :=
  ⟨by decide,
    (C13_full_cutoff_zero (ptr [1, 2, 3, 4]) (ptr [4, 3, 2, 1]) 4 (by decide)).1 7 [0]
      (by decide) rfl,
    (C13_full_cutoff_zero (ptr [1, 2, 3, 4]) (ptr [4, 3, 2, 1]) 4 (by decide)).2 1
      (by decide)⟩

/-! ## C14: indices -/

theorem pairLoop_neg (label : Int → ℚ) (sidx : List Int) (N : Int) (n : Nat) (j : Int)
    (hj : j < 0) (s : ℚ) : pairLoop label sidx N (n + 1) j s = none := by
  simp [pairLoop, vget_neg sidx j hj]

/-- The cutoff loop returns its values exactly on the cutoff lists that are safe for its
entry position. -/
theorem cutoffVals_isSome_iff (label score : Int → ℚ) (N : Int) :
    ∀ (ks : List Int) (left : Int) (s : ℚ),
      (cutoffVals label (sortedIdx score N) N ks s left).isSome = true
        ↔ safeCutoffs N left ks := by
  intro ks
  induction ks with
  | nil => intro left s; simp [cutoffVals, safeCutoffs]
  | cons k ks ih =>
    intro left s
    have hcN : min k N ≤ N := min_le_right _ _
    simp only [cutoffVals, clamp_eq_min, safeCutoffs]
    by_cases h1 : min k N ≤ left
    · have hn : (min k N - left).toNat = 0 := by omega
      rw [hn]
      simp only [pairLoop, Option.isSome_map', ih, h1, true_or, true_and]
    · by_cases h2 : 0 ≤ left
      · have hleft : ((left.toNat : Nat) : Int) = left := by omega
        have hp := pairLoop_isSome label score N left.toNat (min k N - left).toNat
          (by omega) s
        rw [hleft] at hp
        obtain ⟨s1, hs1⟩ := Option.isSome_iff_exists.1 hp
        rw [hs1]
        simp only [Option.isSome_map', ih, h2, or_true, true_and]
      · obtain ⟨n, hn⟩ : ∃ n, (min k N - left).toNat = n + 1 :=
          ⟨(min k N - left).toNat - 1, by omega⟩
        rw [hn, pairLoop_neg label _ N n left (by omega) s]
        simp [h1, h2]

theorem safeCutoffs_of_nonneg (N : Int) :
    ∀ (ks : List Int) (left : Int), 0 ≤ N → 0 ≤ left → (∀ k ∈ ks, 0 ≤ k) →
      safeCutoffs N left ks := by
  intro ks
  induction ks with
  | nil => intro left _ _ _; trivial
  | cons k ks ih =>
    intro left hN hleft hks
    exact ⟨Or.inr hleft, ih _ hN (le_min (hks k (List.mem_cons_self _ _)) hN)
      (fun k1 h1 => hks k1 (List.mem_cons_of_mem _ h1))⟩

theorem vget_some_bounds {α : Type} (v : List α) (j : Int) (x : α) (h : vget v j = some x) :
    0 ≤ j ∧ j < (v.length : Int) ∧ x ∈ v := by
  unfold vget at h
  split at h
  · rename_i h0
    obtain ⟨h1, h2⟩ := List.getElem?_eq_some_iff.1 h
    exact ⟨h0, by omega, h2 ▸ List.getElem_mem _⟩
  · cases h

/-- C14 fails as stated: with the cutoffs `[-1, 1]` on a group of one item the second
cutoff starts the inner loop at `j = -1` and reads `sorted_idx[-1]`. -/
theorem C14_indices_counterexample :
    CalAvgdiffAtK [-1, 1] (ptr [5]) (ptr [1]) 1 [0, 0] = none
      ∧ vget (sortedIdx (ptr [1]) 1) (-1) = none := by
  constructor
  · simp [CalAvgdiffAtK, cutoffLoop, pairLoop, sortedIdx, stable_sort, stableInsert, vget,
      vset, ptr, Dbl.div, List.range, List.range.loop, Int.toNat]
  · exact vget_neg _ _ (by decide)

/-- C14, amended: for a group of size `N ≥ 0` and an output vector of the size of the
cutoff list, `CalAvgdiffAtK` accesses its vectors only inside their bounds exactly when
the inner loop is never started at a negative position (`safeCutoffs`); this is so for
every list of cutoffs that are not negative, in any order, zero and cutoffs above `N`
included.  Every successful read `sorted_idx[j]` has `0 ≤ j < N` and yields an index in
`[0, N)`. -/
theorem C14_indices_in_bounds (label score : Int → ℚ) (N : Int) (hN : 0 ≤ N)
    (ks : List Int) (out : List Dbl) (hout : out.length = ks.length) :
    ((CalAvgdiffAtK ks label score N out).isSome = true ↔ safeCutoffs N 0 ks) ∧
      ((∀ k ∈ ks, 0 ≤ k) →
        ∃ vs, CalAvgdiffAtK ks label score N out = some vs ∧ vs.length = ks.length) ∧
      (∀ (j idx : Int), vget (sortedIdx score N) j = some idx →
        0 ≤ j ∧ j < N ∧ 0 ≤ idx ∧ idx < N) := by
  have hiff : (CalAvgdiffAtK ks label score N out).isSome = true ↔ safeCutoffs N 0 ks := by
    rw [CalAvgdiffAtK_eq ks label score N out hout]
    exact cutoffVals_isSome_iff label score N ks 0 0
  refine ⟨hiff, ?_, ?_⟩
  · intro hks
    obtain ⟨vs, hvs⟩ := Option.isSome_iff_exists.1
      (hiff.2 (safeCutoffs_of_nonneg N ks 0 hN (le_refl 0) hks))
    refine ⟨vs, hvs, ?_⟩
    rw [CalAvgdiffAtK_eq ks label score N out hout] at hvs
    exact cutoffVals_length _ _ _ _ _ _ _ hvs
  · intro j idx h
    obtain ⟨h0, h1, h2⟩ := vget_some_bounds _ j idx h
    rw [sortedIdx_length] at h1
    have h3 := (mem_sortedIdx score N idx).1 h2
    exact ⟨h0, by omega, h3.1, h3.2⟩

/-- C14, amended, at the cutoffs `[5, 0, 2]` on a group of three items. -/
theorem C14_indices_in_bounds_witness :
    (0 : Int) ≤ 3 ∧ (∀ k ∈ ([5, 0, 2] : List Int), 0 ≤ k) ∧
      ∃ vs, CalAvgdiffAtK [5, 0, 2] (ptr [1, 2, 3]) (ptr [3, 1, 2]) 3 [0, 0, 0] = some vs ∧
        vs.length = ([5, 0, 2] : List Int).length :=
  ⟨by decide, by decide,
    (C14_indices_in_bounds (ptr [1, 2, 3]) (ptr [3, 1, 2]) 3 (by decide) [5, 0, 2]
      [0, 0, 0] rfl).2.1 (by decide)⟩

/-! ## C15: labels ordered like the scores -/

/-- For `f` non-increasing on the positions below `n`, the sum of `f j - f (n - 1 - j)` over
the first `K ≤ n` positions is not negative. -/
theorem sum_pair_nonneg (f : Nat → ℚ) (n : Nat)
    (hf : ∀ p q : Nat, p ≤ q → q < n → f q ≤ f p) (K : Nat) (hK : K ≤ n) :
    0 ≤ ∑ j in Finset.range K, (f j - f (n - 1 - j)) := by
  have hsmall : ∀ M : Nat, 2 * M ≤ n → 0 ≤ ∑ j in Finset.range M, (f j - f (n - 1 - j)) := by
    intro M hM
    refine Finset.sum_nonneg ?_
    intro j hj
    rw [Finset.mem_range] at hj
    have := hf j (n - 1 - j) (by omega) (by omega)
    linarith
  by_cases h : 2 * K ≤ n
  · exact hsmall K h
  · rw [sum_pair_reflect f n K hK]
    exact hsmall (n - K) (by omega)

theorem rank_mem (score : Int → ℚ) (N : Int) (p : Nat) (hp : p < N.toNat) :
    0 ≤ rank score N p ∧ rank score N p < N := by
  unfold rank
  exact getD_mem_sortedIdx score N p (by rw [sortedIdx_length]; exact hp)

/-- Value of `CalAvgdiffAtK` for a single positive cutoff on a group of size `N ≥ 1`. -/
theorem CalAvgdiffAtK_single (label score : Int → ℚ) (N : Int) (hN : 1 ≤ N) (K : Int)
    (hK : 1 ≤ K) (out : List Dbl) (hout : out.length = 1) :
    CalAvgdiffAtK [K] label score N out
      = some [Dbl.fin (pairSum label score N (min K N).toNat / (2 * ((min K N : Int) : ℚ)))] := by
  rw [CalAvgdiffAtK_ascending label score N hN [K]
    (by intro k hk; rw [List.mem_singleton] at hk; omega) (by simp) out (by simpa using hout)]
  rfl

theorem pairSum_nonneg_of_consistent (label score : Int → ℚ) (N : Int)
    (hcons : ∀ a b : Int, 0 ≤ a → a < N → 0 ≤ b → b < N →
      score a ≥ score b → label a ≥ label b)
    (K : Nat) (hK : (K : Int) ≤ N) :
    0 ≤ pairSum label score N K := by
  unfold pairSum
  refine sum_pair_nonneg (fun j => label (rank score N j)) N.toNat ?_ K (by omega)
  intro p q hpq hq
  rcases Nat.eq_or_lt_of_le hpq with h | h
  · subst h; exact le_refl _
  · have hp := rank_mem score N p (by omega)
    have hq1 := rank_mem score N q hq
    exact hcons _ _ hp.1 hp.2 hq1.1 hq1.2 (rank_score_antitone score N p q h hq)

/-- C15: for a group of size `N ≥ 1` whose labels are ordered consistently with the scores
and every single cutoff `K ≥ 1`, also one above `N / 2`, the result of `CalAvgdiffAtK` is
not negative. -/
theorem C15_consistent_labels_nonneg (label score : Int → ℚ) (N : Int) (hN : 1 ≤ N)
    (hcons : ∀ a b : Int, 0 ≤ a → a < N → 0 ≤ b → b < N →
      score a ≥ score b → label a ≥ label b)
    (K : Int) (hK : 1 ≤ K) (out : List Dbl) (hout : out.length = 1) :
    ∃ v : ℚ, CalAvgdiffAtK [K] label score N out = some [Dbl.fin v] ∧ 0 ≤ v := by
  refine ⟨_, CalAvgdiffAtK_single label score N hN K hK out hout, ?_⟩
  have hc1 : 1 ≤ min K N := le_min hK hN
  have hcN : min K N ≤ N := min_le_right _ _
  refine div_nonneg
    (pairSum_nonneg_of_consistent label score N hcons (min K N).toNat (by omega)) ?_
  have : (0 : ℚ) ≤ ((min K N : Int) : ℚ) := by exact_mod_cast (by omega : 0 ≤ min K N)
  linarith

/-- C15 at three items whose labels equal their scores, with the cutoff `2` (the top and
bottom ranges overlap). -/
theorem C15_consistent_labels_nonneg_witness :
    (1 : Int) ≤ 3 ∧ (1 : Int) ≤ 2 ∧
      ∃ v : ℚ, CalAvgdiffAtK [2] (ptr [3, 1, 2]) (ptr [3, 1, 2]) 3 [0] = some [Dbl.fin v]
        ∧ 0 ≤ v :=
  ⟨by decide, by decide,
    C15_consistent_labels_nonneg (ptr [3, 1, 2]) (ptr [3, 1, 2]) 3 (by decide)
      (fun _ _ _ _ _ _ h => h) 2 (by decide) [0] rfl⟩

/-! ## C16: negated scores -/

/-- With pairwise distinct scores the ranking by the negated scores is the reverse of the
ranking by the scores. -/
theorem sortedIdx_neg (score : Int → ℚ) (N : Int)
    (hinj : ∀ a b : Int, 0 ≤ a → a < N → 0 ≤ b → b < N → score a = score b → a = b) :
    sortedIdx (fun i => - score i) N = (sortedIdx score N).reverse := by
  haveI : IsAntisymm Int (rankedBefore (fun i => - score i)) :=
    ⟨fun a b h1 h2 => absurd h2 (rankedBefore_asymm _ a b h1)⟩
  refine List.eq_of_perm_of_sorted ?_ (sortedIdx_pairwise _ N) ?_
  · exact (sortedIdx_perm _ N).trans
      ((sortedIdx_perm score N).symm.trans (List.reverse_perm _).symm)
  · show List.Pairwise _ _
    rw [List.pairwise_reverse]
    refine List.Pairwise.imp_of_mem ?_ (sortedIdx_pairwise score N)
    intro a b ha hb hab
    have ha1 := (mem_sortedIdx score N a).1 ha
    have hb1 := (mem_sortedIdx score N b).1 hb
    rcases hab with h | ⟨he, hlt⟩
    · exact Or.inl (neg_lt_neg h)
    · have := hinj a b ha1.1 ha1.2 hb1.1 hb1.2 he
      omega

theorem rank_neg (score : Int → ℚ) (N : Int)
    (hinj : ∀ a b : Int, 0 ≤ a → a < N → 0 ≤ b → b < N → score a = score b → a = b)
    (p : Nat) (hp : p < N.toNat) :
    rank (fun i => - score i) N p = rank score N (N.toNat - 1 - p) := by
  have hlen := sortedIdx_length score N
  unfold rank
  rw [sortedIdx_neg score N hinj,
    List.getD_eq_getElem _ _ (by rw [List.length_reverse, hlen]; exact hp),
    List.getD_eq_getElem _ _ (by omega : N.toNat - 1 - p < (sortedIdx score N).length),
    List.getElem_reverse]
  congr 1
  omega

theorem pairSum_neg (label score : Int → ℚ) (N : Int)
    (hinj : ∀ a b : Int, 0 ≤ a → a < N → 0 ≤ b → b < N → score a = score b → a = b)
    (K : Nat) (hK : (K : Int) ≤ N) :
    pairSum label (fun i => - score i) N K = - pairSum label score N K := by
  unfold pairSum
  rw [← Finset.sum_neg_distrib]
  refine Finset.sum_congr rfl ?_
  intro j hj
  rw [Finset.mem_range] at hj
  rw [rank_neg score N hinj j (by omega), rank_neg score N hinj (N.toNat - 1 - j) (by omega)]
  have : N.toNat - 1 - (N.toNat - 1 - j) = j := by omega
  rw [this]
  ring

/-- C16: for a group of size `N ≥ 1` with pairwise distinct scores and every single cutoff
`K ≥ 1`, negating every score reverses the ranking and negates the result of
`CalAvgdiffAtK`. -/
theorem C16_negated_scores (label score : Int → ℚ) (N : Int) (hN : 1 ≤ N)
    (hinj : ∀ a b : Int, 0 ≤ a → a < N → 0 ≤ b → b < N → score a = score b → a = b)
    (K : Int) (hK : 1 ≤ K) (out : List Dbl) (hout : out.length = 1) :
    sortedIdx (fun i => - score i) N = (sortedIdx score N).reverse ∧
    ∃ v : ℚ, CalAvgdiffAtK [K] label score N out = some [Dbl.fin v] ∧
      CalAvgdiffAtK [K] label (fun i => - score i) N out = some [Dbl.fin (-v)] := by
  refine ⟨sortedIdx_neg score N hinj, _,
    CalAvgdiffAtK_single label score N hN K hK out hout, ?_⟩
  have hc1 : 1 ≤ min K N := le_min hK hN
  have hcN : min K N ≤ N := min_le_right _ _
  rw [CalAvgdiffAtK_single label _ N hN K hK out hout,
    pairSum_neg label score N hinj (min K N).toNat (by omega), neg_div]

/-- C16 at labels `[5,1,2]` with the scores `0, 1, 2` (every item scored by its index) and
the cutoff `1`. -/
theorem C16_negated_scores_witness :
    (1 : Int) ≤ 3 ∧ (1 : Int) ≤ 1 ∧
      ∃ v : ℚ,
        CalAvgdiffAtK [1] (ptr [5, 1, 2]) (fun i => (i : ℚ)) 3 [0] = some [Dbl.fin v] ∧
        CalAvgdiffAtK [1] (ptr [5, 1, 2]) (fun i => - (i : ℚ)) 3 [0] = some [Dbl.fin (-v)] :=
  ⟨by decide, by decide,
    (C16_negated_scores (ptr [5, 1, 2]) (fun i => (i : ℚ)) 3 (by decide)
      (fun _ _ _ _ _ _ h => Int.cast_injective h) 1 (by decide) [0] rfl).2⟩

/-! ## C17: bounds -/

theorem pairSum_abs_le (label score : Int → ℚ) (N : Int) (lo hi : ℚ)
    (hlab : ∀ a : Int, 0 ≤ a → a < N → lo ≤ label a ∧ label a ≤ hi)
    (K : Nat) (hK : (K : Int) ≤ N) :
    |pairSum label score N K| ≤ (K : ℚ) * (hi - lo) := by
  unfold pairSum
  refine le_trans (Finset.abs_sum_le_sum_abs _ _) ?_
  have hterm : ∀ j ∈ Finset.range K,
      |label (rank score N j) - label (rank score N (N.toNat - 1 - j))| ≤ hi - lo := by
    intro j hj
    rw [Finset.mem_range] at hj
    have h1 := rank_mem score N j (by omega)
    have h2 := rank_mem score N (N.toNat - 1 - j) (by omega)
    have ha := hlab _ h1.1 h1.2
    have hb := hlab _ h2.1 h2.2
    rw [abs_le]
    constructor <;> linarith [ha.1, ha.2, hb.1, hb.2]
  refine le_trans (Finset.sum_le_sum hterm) ?_
  rw [Finset.sum_const, Finset.card_range, nsmul_eq_mul]

/-- The value `S(c) / (2 c)` for the effective cutoff `c = min(K, N)` lies within half the
label range of zero. -/
theorem cutoff_value_bounds (label score : Int → ℚ) (N : Int) (hN : 1 ≤ N) (lo hi : ℚ)
    (hlab : ∀ a : Int, 0 ≤ a → a < N → lo ≤ label a ∧ label a ≤ hi)
    (K : Int) (hK : 1 ≤ K) :
    -(hi - lo) / 2 ≤ pairSum label score N (min K N).toNat / (2 * ((min K N : Int) : ℚ)) ∧
      pairSum label score N (min K N).toNat / (2 * ((min K N : Int) : ℚ)) ≤ (hi - lo) / 2 := by
  have hc1 : 1 ≤ min K N := le_min hK hN
  have hcN : min K N ≤ N := min_le_right _ _
  have hcast : (((min K N).toNat : Nat) : Int) = min K N := by omega
  have hcq : (((min K N).toNat : Nat) : ℚ) = ((min K N : Int) : ℚ) := by
    exact_mod_cast congrArg (fun z : Int => (z : ℚ)) hcast
  have hpos : (0 : ℚ) < ((min K N : Int) : ℚ) := by exact_mod_cast (by omega : 0 < min K N)
  have habs := pairSum_abs_le label score N lo hi hlab (min K N).toNat (by omega)
  rw [hcq, abs_le] at habs
  have h2 : (0 : ℚ) < 2 * ((min K N : Int) : ℚ) := by linarith
  constructor
  · rw [le_div_iff₀ h2]
    have : -(hi - lo) / 2 * (2 * ((min K N : Int) : ℚ))
        = -(((min K N : Int) : ℚ) * (hi - lo)) := by ring
    rw [this]
    exact habs.1
  · rw [div_le_iff₀ h2]
    have : (hi - lo) / 2 * (2 * ((min K N : Int) : ℚ))
        = ((min K N : Int) : ℚ) * (hi - lo) := by ring
    rw [this]
    exact habs.2

theorem Dbl.sum_fin (g : Nat → ℚ) (n : Nat) :
    ∑ i in Finset.range n, Dbl.fin (g i) = Dbl.fin (∑ i in Finset.range n, g i) := by
  induction n with
  | zero => simp [Dbl.zero_eq]
  | succ n ih => rw [Finset.sum_range_succ, ih, Finset.sum_range_succ, Dbl.fin_add_fin]

/-- A weighted mean, with weights that are not negative and have a positive sum, of values
within `B` of zero is within `B` of zero. -/
theorem weighted_mean_bounds (v w : Nat → ℚ) (n : Nat) (B : ℚ)
    (hv : ∀ i, i < n → -B ≤ v i ∧ v i ≤ B) (hw : ∀ i, i < n → 0 ≤ w i)
    (hsum : 0 < ∑ i in Finset.range n, w i) :
    -B ≤ (∑ i in Finset.range n, v i * w i) / (∑ i in Finset.range n, w i) ∧
      (∑ i in Finset.range n, v i * w i) / (∑ i in Finset.range n, w i) ≤ B := by
  have hup : ∑ i in Finset.range n, v i * w i ≤ B * ∑ i in Finset.range n, w i := by
    rw [Finset.mul_sum]
    refine Finset.sum_le_sum ?_
    intro i hi
    rw [Finset.mem_range] at hi
    exact mul_le_mul_of_nonneg_right (hv i hi).2 (hw i hi)
  have hdown : -B * ∑ i in Finset.range n, w i ≤ ∑ i in Finset.range n, v i * w i := by
    rw [Finset.mul_sum]
    refine Finset.sum_le_sum ?_
    intro i hi
    rw [Finset.mem_range] at hi
    exact mul_le_mul_of_nonneg_right (hv i hi).1 (hw i hi)
  constructor
  · rw [le_div_iff₀ hsum]; exact hdown
  · rw [div_le_iff₀ hsum]; exact hup

theorem groupResult_ascending (ks : List Int) (hpos : ∀ k ∈ ks, 1 ≤ k)
    (hasc : ks.Pairwise (· ≤ ·)) (label : Int → ℚ) (qb : Nat → Int) (score : Int → ℚ)
    (i : Nat) (hi : qb i < qb (i + 1)) :
    groupResult ks label qb score i
      = some (ks.map (fun k => Dbl.fin (groupValue label score qb i k))) := by
  unfold groupResult
  rw [CalAvgdiffAtK_ascending _ _ _ (by omega) ks (fun k hk => by have := hpos k hk; omega)
    (pairwise_clamp _ ks hasc) _ (by simp)]
  rfl

/-- The result of `Eval` for positive non-decreasing cutoffs on groups that are not empty,
with a non-zero sum of weights: entry `j` is the weighted mean of the group values. -/
theorem Eval_ascending (self : TopavgdiffMetric) (qb : Nat → Int)
    (hqb : self.query_boundaries_ = some qb) (score : Int → ℚ) (order : List Nat)
    (tid : Nat → Nat) (hs : validSchedule self.num_queries_ self.num_threads_ order tid)
    (hpos : ∀ k ∈ self.eval_at_, 1 ≤ k) (hasc : self.eval_at_.Pairwise (· ≤ ·))
    (hgroups : ∀ i, i < self.num_queries_ → qb i < qb (i + 1))
    (hsum : self.sum_query_weights_ ≠ 0) :
    self.Eval score order tid
      = some (((List.range self.eval_at_.length).map (fun j =>
          (∑ i in Finset.range self.num_queries_,
            groupValue self.label_ score qb i (self.eval_at_.getD j 0)
              * groupWeight self.query_weights_ i)
          / self.sum_query_weights_)).map Dbl.fin) := by
  rw [Eval_eq_closed self qb hqb score order tid hs,
    evalClosed_of_results _ _ _ _ _ _ _
      (fun i => self.eval_at_.map (fun k => Dbl.fin (groupValue self.label_ score qb i k)))
      (fun i hi => groupResult_ascending _ hpos hasc _ _ _ i (hgroups i hi)),
    List.map_map]
  congr 1
  refine List.map_congr_left ?_
  intro j hj
  rw [List.mem_range] at hj
  have hentry : ∀ i, (self.eval_at_.map
        (fun k => Dbl.fin (groupValue self.label_ score qb i k))).getD j 0
      = Dbl.fin (groupValue self.label_ score qb i (self.eval_at_.getD j 0)) := by
    intro i
    rw [List.getD_eq_getElem _ _ (by simpa using hj), List.getD_eq_getElem _ _ hj,
      List.getElem_map]
  simp only [hentry, Dbl.scale, Function.comp, Dbl.sum_fin, Dbl.div, hsum, if_false]

/-- C17: for a group of size `N ≥ 1` whose labels lie in `[lo, hi]` and every single cutoff
`K ≥ 1`, the result `v` of `CalAvgdiffAtK` satisfies `-(hi - lo)/2 ≤ v ≤ (hi - lo)/2`; and
after `Init`, for groups that are not empty with labels in `[lo, hi]`, positive
non-decreasing cutoffs (a single cutoff `K ≥ 1` among them) and group weights that are not
negative and have a positive sum, every entry of the result of `Eval` lies in the same
interval, under every schedule. -/
theorem C17_result_bounds (lo hi : ℚ) :
    (∀ (label score : Int → ℚ) (N : Int), 1 ≤ N →
      (∀ a : Int, 0 ≤ a → a < N → lo ≤ label a ∧ label a ≤ hi) →
      ∀ (K : Int), 1 ≤ K → ∀ (out : List Dbl), out.length = 1 →
        ∃ v : ℚ, CalAvgdiffAtK [K] label score N out = some [Dbl.fin v] ∧
          -(hi - lo) / 2 ≤ v ∧ v ≤ (hi - lo) / 2) ∧
    (∀ (m0 : TopavgdiffMetric) (md : Metadata) (num_data : Int) (m : TopavgdiffMetric)
      (qb : Nat → Int) (score : Int → ℚ) (order : List Nat) (tid : Nat → Nat),
      m0.Init md num_data = Except.ok m → md.query_boundaries = some qb →
      validSchedule md.num_queries m0.num_threads_ order tid →
      (∀ k ∈ m0.eval_at_, 1 ≤ k) → m0.eval_at_.Pairwise (· ≤ ·) →
      (∀ i, i < md.num_queries → qb i < qb (i + 1)) →
      (∀ i, i < md.num_queries → ∀ t : Int, 0 ≤ t → t < qb (i + 1) - qb i →
        lo ≤ md.label (qb i + t) ∧ md.label (qb i + t) ≤ hi) →
      (∀ i, i < md.num_queries → 0 ≤ groupWeight md.query_weights i) →
      0 < ∑ i in Finset.range md.num_queries, groupWeight md.query_weights i →
      ∃ vs : List ℚ, m.Eval score order tid = some (vs.map Dbl.fin) ∧
        vs.length = m0.eval_at_.length ∧
        ∀ v ∈ vs, -(hi - lo) / 2 ≤ v ∧ v ≤ (hi - lo) / 2) := by
  constructor
  · intro label score N hN hlab K hK out hout
    exact ⟨_, CalAvgdiffAtK_single label score N hN K hK out hout,
      cutoff_value_bounds label score N hN lo hi hlab K hK⟩
  · intro m0 md num_data m qb score order tid hInit hqb hs hpos hasc hgroups hlab hw hsum
    rw [Init_ok m0 md num_data qb hqb] at hInit
    injection hInit with hm
    subst hm
    refine ⟨_, Eval_ascending _ qb rfl score order tid hs hpos hasc hgroups
      (ne_of_gt hsum), by simp, ?_⟩
    intro v hv
    rw [List.mem_map] at hv
    obtain ⟨j, hj, rfl⟩ := hv
    rw [List.mem_range] at hj
    have hk : 1 ≤ m0.eval_at_.getD j 0 := by
      rw [List.getD_eq_getElem _ _ hj]
      exact hpos _ (List.getElem_mem _)
    have hneg : -((hi - lo) / 2) = -(hi - lo) / 2 := by ring
    have := weighted_mean_bounds
      (fun i => groupValue md.label score qb i (m0.eval_at_.getD j 0))
      (fun i => groupWeight md.query_weights i) md.num_queries ((hi - lo) / 2)
      (fun i hi1 => by
        have hb := cutoff_value_bounds (fun t => md.label (qb i + t))
          (fun t => score (qb i + t)) (qb (i + 1) - qb i) (by have := hgroups i hi1; omega)
          lo hi (hlab i hi1) (m0.eval_at_.getD j 0) hk
        rw [hneg]
        exact hb)
      hw hsum
    rw [hneg] at this
    exact this

/-- C17 at labels `[1,2,3,4]` in `[1, 4]`, scores `[4,3,2,1]` and the cutoff `1`, where the
value `-3/2` reaches the lower bound `-(4 - 1)/2`; and at the two groups with the labels
`[5,1]`, `[1,5]` in `[1, 5]` and the weights `1` and `3`. -/
theorem C17_result_bounds_witness :
    (∃ v : ℚ,
      CalAvgdiffAtK [1] (ptr [1, 2, 3, 4]) (ptr [4, 3, 2, 1]) 4 [0] = some [Dbl.fin v] ∧
      -((4 : ℚ) - 1) / 2 ≤ v ∧ v ≤ ((4 : ℚ) - 1) / 2) ∧
    (∃ (m : TopavgdiffMetric) (vs : List ℚ), (TopavgdiffMetric.new [1] 2).Init (exampleMetadata (some [1, 3])) 4
        = Except.ok m ∧
      m.Eval (ptr [2, 1, 2, 1]) [1, 0] (fun i => 1 - i) = some (vs.map Dbl.fin) ∧
      vs.length = 1 ∧ ∀ v ∈ vs, -((5 : ℚ) - 1) / 2 ≤ v ∧ v ≤ ((5 : ℚ) - 1) / 2) := by
  constructor
  · refine (C17_result_bounds 1 4).1 (ptr [1, 2, 3, 4]) (ptr [4, 3, 2, 1]) 4 (by decide) ?_ 1
      (by decide) [0] rfl
    intro a ha ha4
    have : a = 0 ∨ a = 1 ∨ a = 2 ∨ a = 3 := by omega
    rcases this with rfl | rfl | rfl | rfl <;> simp [ptr, Int.toNat] <;> norm_num
  · have h := (C17_result_bounds 1 5).2 (TopavgdiffMetric.new [1] 2)
      (exampleMetadata (some [1, 3])) 4 _ (ptrInt [0, 2, 4]) (ptr [2, 1, 2, 1]) [1, 0]
      (fun i => 1 - i) rfl rfl ⟨by decide, fun i hi => by show 1 - i < 2; omega⟩
      (by decide) (by decide)
      (by
        intro i hi
        have : i = 0 ∨ i = 1 := by
          have : i < 2 := hi
          omega
        rcases this with rfl | rfl <;> decide)
      (by
        intro i hi t ht0 ht
        have hi2 : i = 0 ∨ i = 1 := by
          have : i < 2 := hi
          omega
        rcases hi2 with rfl | rfl
        · have ht2 : t < 2 := by simpa [ptrInt] using ht
          have : t = 0 ∨ t = 1 := by omega
          rcases this with rfl | rfl <;>
            simp [exampleMetadata, ptr, ptrInt, Int.toNat]
        · have ht2 : t < 2 := by
            have h4 : ptrInt [0, 2, 4] (1 + 1) - ptrInt [0, 2, 4] 1 = 2 := by decide
            rw [h4] at ht
            exact ht
          have : t = 0 ∨ t = 1 := by omega
          rcases this with rfl | rfl <;>
            simp [exampleMetadata, ptr, ptrInt, Int.toNat])
      (by
        intro i hi
        have : i = 0 ∨ i = 1 := by
          have : i < 2 := hi
          omega
        rcases this with rfl | rfl <;>
          simp [exampleMetadata, groupWeight, ptrW])
      (by
        simp [exampleMetadata, groupWeight, ptrW, Finset.sum_range_succ]
        norm_num)
    obtain ⟨vs, h1, h2, h3⟩ := h
    exact ⟨_, vs, rfl, h1, h2, h3⟩

end LightGBM
